import Mathlib

/-!
# Verification of the player-statistics engine

Shallow embedding, in Lean 4, of the ingestion/aggregation/caching engine of
the repository (Go sources `server/player.go` and its variants).  Machine
integers (`int` in Go) are modelled as `Int`; Go maps are modelled as
association lists where an insertion of a fresh key appends at the end and an
insertion of a present key updates in place (this matches a Go map's
set/lookup semantics; the nondeterministic iteration order of a Go map is
modelled, where it matters, by quantifying over permutations of the
association list).  JSON values that the Go code inspects through
`json.Unmarshal` calls on `json.RawMessage` are modelled by the small `JsonVal`
type below: `json.Unmarshal` into a `string` (resp. `int`, resp.
`[]json.RawMessage`) succeeds exactly on a `str` (resp. `num`, resp. `arr`)
value.
-/

namespace PlayerStats

/-- A decoded JSON value, as far as the event-processing code inspects it. -/
inductive JsonVal where
  | str : String → JsonVal
  | num : Int → JsonVal
  | arr : List JsonVal → JsonVal
  | other : JsonVal

/-- Models `json.Unmarshal` of a raw message into a Go `string`. -/
def jsonStr? : JsonVal → Option String
  | .str s => some s
  | _ => none

/-- Models `json.Unmarshal` of a raw message into a Go `int`. -/
def jsonInt? : JsonVal → Option Int
  | .num n => some n
  | _ => none

/-- Models `json.Unmarshal` of a raw message into a Go `[]json.RawMessage`. -/
def jsonArr? : JsonVal → Option (List JsonVal)
  | .arr xs => some xs
  | _ => none

/-- An entry of the capture file's `entities` array (`captureEntity` /
`captureEntityMeta` in the Go sources).  `positions` is the decoded
`positions` array; each position entry is the raw tuple
`[pos, dir, alive, isInVehicle, name, isPlayer]`. -/
structure CaptureEntity where
  type : String
  id : Int
  name : String
  side : String
  isPlayer : Int
  positions : List (List JsonVal)

/-- The part of a capture document the engine consumes: the `entities` array
and the raw `events` array. -/
structure CaptureData where
  entities : List CaptureEntity
  events : List (List JsonVal)

/-- Go struct `PlayerWeaponStat`: kill count per weapon for a player. -/
structure PlayerWeaponStat where
  weapon : String
  kills : Int
deriving DecidableEq

/-- Go struct `PlayerEventSummary`: the per-player output of the engine. -/
structure PlayerEventSummary where
  id : Int
  name : String
  side : String
  killCount : Int
  deathCount : Int
  teamKillCount : Int
  weaponStats : List PlayerWeaponStat
deriving DecidableEq

/-! ## Association lists standing for Go maps -/

/-- Lookup in a Go map (modelled as an association list). -/
def alLookup {κ ν : Type} [DecidableEq κ] : List (κ × ν) → κ → Option ν
  | [], _ => none
  | (k, v) :: rest, q => if k = q then some v else alLookup rest q

/-- The assignment `m[k] = v` on a Go map: update in place when present,
append when fresh. -/
def alSet {κ ν : Type} [DecidableEq κ] : List (κ × ν) → κ → ν → List (κ × ν)
  | [], q, v => [(q, v)]
  | (k, w) :: rest, q, v =>
    if k = q then (q, v) :: rest else (k, w) :: alSet rest q v

/-- The increment `m[k] += d` on a Go `map[string]int` (missing keys read
as zero). -/
def wmIncr (m : List (String × Int)) (k : String) (d : Int) :
    List (String × Int) :=
  alSet m k ((alLookup m k).getD 0 + d)

/-- The keys of an association list. -/
def alKeys {κ ν : Type} (m : List (κ × ν)) : List κ := m.map Prod.fst

/-- Sum of the values of a `map[string]int`. -/
def wmValuesSum (m : List (String × Int)) : Int := (m.map Prod.snd).sum

/-! ## Sorting

The Go code sorts with `sort.Slice(s, func(i, j) bool { return key(s[i]) >
key(s[j]) })`, a deterministic comparison sort on the slice it is given.
We model it by insertion sort with the same strict comparison; the
properties proved below (descending order, permutation of the input) hold
for any comparison sort with this `less` function. -/

/-- Insert `a` into `l` before the first element it strictly beats. -/
def insDesc {α : Type} (key : α → Int) (a : α) : List α → List α
  | [] => [a]
  | b :: bs => if key a > key b then a :: b :: bs else b :: insDesc key a bs

/-- Sort descending by `key` (models `sort.Slice` with a `>` comparison). -/
def sortDesc {α : Type} (key : α → Int) (l : List α) : List α :=
  l.foldr (insDesc key) []

theorem mem_insDesc {α : Type} (key : α → Int) (a x : α) (l : List α) :
    x ∈ insDesc key a l ↔ x = a ∨ x ∈ l := by
  induction l with
  | nil => simp [insDesc]
  | cons b bs ih =>
    simp only [insDesc]
    split
    · simp [or_comm, or_left_comm]
    · simp [ih, or_comm, or_left_comm]

theorem perm_insDesc {α : Type} (key : α → Int) (a : α) (l : List α) :
    List.Perm (insDesc key a l) (a :: l) := by
  induction l with
  | nil => simp [insDesc]
  | cons b bs ih =>
    simp only [insDesc]
    split
    · exact List.Perm.refl _
    · exact (List.Perm.cons b ih).trans (List.Perm.swap a b bs)

theorem sortDesc_perm {α : Type} (key : α → Int) (l : List α) :
    List.Perm (sortDesc key l) l := by
  induction l with
  | nil => exact List.Perm.refl _
  | cons a l ih =>
    exact (perm_insDesc key a (sortDesc key l)).trans (List.Perm.cons a ih)

theorem mem_sortDesc {α : Type} (key : α → Int) (x : α) (l : List α) :
    x ∈ sortDesc key l ↔ x ∈ l :=
  (sortDesc_perm key l).mem_iff

theorem pairwise_insDesc {α : Type} (key : α → Int) (a : α) (l : List α)
    (h : l.Pairwise (fun x y => key y ≤ key x)) :
    (insDesc key a l).Pairwise (fun x y => key y ≤ key x) := by
  induction l with
  | nil => simp [insDesc]
  | cons b bs ih =>
    rw [List.pairwise_cons] at h
    simp only [insDesc]
    split
    · rename_i hab
      refine List.Pairwise.cons ?_ (List.Pairwise.cons h.1 h.2)
      intro y hy
      rcases List.mem_cons.1 hy with rfl | hy'
      · omega
      · have := h.1 y hy'
        omega
    · rename_i hab
      refine List.Pairwise.cons ?_ (ih h.2)
      intro y hy
      rcases (mem_insDesc key a y bs).1 hy with rfl | hy
      · omega
      · exact h.1 y hy

theorem sortDesc_sorted {α : Type} (key : α → Int) (l : List α) :
    (sortDesc key l).Pairwise (fun x y => key y ≤ key x) := by
  induction l with
  | nil => exact List.Pairwise.nil
  | cons a l ih => exact pairwise_insDesc key a (sortDesc key l) ih

/-! ## Per-capture processing (`processPlayerEvents`)

The entity pass, the event loop and the collection step below follow the
streaming variant of `processPlayerEvents` (`server/player.go`): entities
that are player units seed a `playerAcc` keyed by entity id, `killed`
events update the accumulators, and the collection step converts each
accumulator's weapon map to a kill-sorted slice and sorts the players by
kill count. -/

/-- The per-player accumulator (`playerAcc` in the Go source): a
`PlayerEventSummary` under construction plus the `weaponMap`. -/
structure PlayerAcc where
  id : Int
  name : String
  side : String
  killCount : Int
  deathCount : Int
  teamKillCount : Int
  weaponMap : List (String × Int)
deriving DecidableEq

/-- The `playerMap`, keyed by entity id. -/
abbrev PlayerMap := List (Int × PlayerAcc)

/-- The fresh accumulator seeded for a player entity (streaming variant:
the static `name` field is used unchanged). -/
def freshAcc (e : CaptureEntity) : PlayerAcc :=
  { id := e.id, name := e.name, side := e.side,
    killCount := 0, deathCount := 0, teamKillCount := 0, weaponMap := [] }

/-- The entity pass: keep an entity iff `type == "unit" && isPlayer == 1`. -/
def buildPlayerMap (entities : List CaptureEntity) : PlayerMap :=
  entities.foldl
    (fun m e =>
      if e.type = "unit" ∧ e.isPlayer = 1 then alSet m e.id (freshAcc e) else m)
    []

/-- The body of the event loop once a `killed` event has been fully parsed:
update the killer's kill count, weapon map and (on a same-side kill of a
distinct tracked player) team-kill count, then the victim's death count. -/
def applyKill (m : PlayerMap) (killerID victimID : Int) (weapon : String) :
    PlayerMap :=
  let m1 :=
    match alLookup m killerID with
    | none => m
    | some killer =>
      let tk : Int :=
        match alLookup m victimID with
        | some victim =>
          if killerID ≠ victimID ∧ killer.side = victim.side then 1 else 0
        | none => 0
      alSet m killerID
        { killer with
          killCount := killer.killCount + 1,
          weaponMap := wmIncr killer.weaponMap weapon 1,
          teamKillCount := killer.teamKillCount + tk }
  match alLookup m1 victimID with
  | none => m1
  | some victim =>
    alSet m1 victimID { victim with deathCount := victim.deathCount + 1 }

/-- One iteration of the event loop: the chain of guards of the Go code
(`len < 4`, event type `"killed"`, victim id, cause tuple of length ≥ 2,
causer id, weapon defaulting to `"N/A"`); any guard failure skips the
event. -/
def processEvent (m : PlayerMap) (rawEvent : List JsonVal) : PlayerMap :=
  if rawEvent.length < 4 then m
  else
    match jsonStr? (rawEvent.getD 1 .other) with
    | some "killed" =>
      match jsonInt? (rawEvent.getD 2 .other) with
      | some victimID =>
        match jsonArr? (rawEvent.getD 3 .other) with
        | some causedByInfo =>
          if causedByInfo.length < 2 then m
          else
            match jsonInt? (causedByInfo.getD 0 .other) with
            | some killerID =>
              let weapon := (jsonStr? (causedByInfo.getD 1 .other)).getD "N/A"
              applyKill m killerID victimID weapon
            | none => m
        | none => m
      | none => m
    | _ => m

/-- The event pass. -/
def runEvents (m : PlayerMap) (events : List (List JsonVal)) : PlayerMap :=
  events.foldl processEvent m

/-- The collection step for one accumulator: weapon map → slice sorted by
kills descending. -/
def finishAcc (a : PlayerAcc) : PlayerEventSummary :=
  { id := a.id, name := a.name, side := a.side,
    killCount := a.killCount, deathCount := a.deathCount,
    teamKillCount := a.teamKillCount,
    weaponStats :=
      sortDesc (fun ws => ws.kills)
        (a.weaponMap.map fun p => PlayerWeaponStat.mk p.1 p.2) }

/-- The collection step over the map's accumulators, taken in the order the
Go map range produces them, followed by the final sort by kill count. -/
def collectPlayers (iter : List PlayerAcc) : List PlayerEventSummary :=
  sortDesc (fun p => p.killCount) (iter.map finishAcc)

/-- Runs `processPlayerEvents` on an already-decoded capture, with the map
iterated in insertion order. -/
def processCapture (c : CaptureData) : List PlayerEventSummary :=
  collectPlayers ((runEvents (buildPlayerMap c.entities) c.events).map Prod.snd)

/-! ## Display-name resolution (claim C3)

Three source variants exist.  The streaming decoder above keeps the static
`name`.  The whole-document decoder walks the full position history in
reverse for the last non-empty name; the concurrent variant walks only the
last 10 snapshots. -/

/-- Parse the name slot of one position entry: a string is supplied iff the
entry has at least 5 elements, the 5th unmarshals to a string, and that
string is non-empty (Go: `len(entry) >= 5`, `json.Unmarshal(entry[4],
&name) == nil`, `name != ""`). -/
def parseNameSlot (entry : List JsonVal) : Option String :=
  if entry.length ≥ 5 then
    match jsonStr? (entry.getD 4 .other) with
    | some s => if s ≠ "" then some s else none
    | none => none
  else none

/-- First parseable non-empty name slot in the given scan order. -/
def findOverride : List (List JsonVal) → Option String
  | [] => none
  | entry :: rest =>
    match parseNameSlot entry with
    | some s => some s
    | none => findOverride rest

/-- Display-name resolution of the whole-document decoder
(`server/player.go`, buffered variant): walk all positions in reverse and
stop at the first non-empty parseable name. -/
def resolveDisplayNameFull (e : CaptureEntity) : String :=
  (findOverride e.positions.reverse).getD e.name

/-- Display-name resolution of the concurrent variant: same walk, but
starting no earlier than `len(positions) - 10`. -/
def resolveDisplayNameLast10 (e : CaptureEntity) : String :=
  (findOverride ((e.positions.drop (e.positions.length - 10)).reverse)).getD
    e.name

/-- The effective display name as the specification words it: the static
`name` field unless some position snapshot supplies a non-empty override,
in which case the last (most recent) non-empty override encountered while
scanning the position history is authoritative; an unparseable name slot
supplies no override. -/
def specEffectiveName (staticName : String) (positions : List (List JsonVal)) :
    String :=
  (findOverride positions.reverse).getD staticName

/-! ## Archive merge (`processAllPlayerEvents`)

Per-file results are folded into a map keyed by player name.  The first
occurrence of a name seeds the merged record (copying id/side/counters and
loading the weapon slice into a fresh weapon map by assignment); later
occurrences add their counters and fold their weapon entries additively. -/

/-- Go struct `mergedPlayer`: a summary under construction plus the
merged `weaponMap`. -/
structure MergedPlayer where
  id : Int
  name : String
  side : String
  killCount : Int
  deathCount : Int
  teamKillCount : Int
  weaponMap : List (String × Int)
deriving DecidableEq

/-- The merge map, keyed by player name. -/
abbrev MergedMap := List (String × MergedPlayer)

/-- Seeding a merged record from the first per-file record of a name:
`wm[ws.Weapon] = ws.Kills` for each weapon stat, in slice order. -/
def seedMerged (p : PlayerEventSummary) : MergedPlayer :=
  { id := p.id, name := p.name, side := p.side,
    killCount := p.killCount, deathCount := p.deathCount,
    teamKillCount := p.teamKillCount,
    weaponMap :=
      p.weaponStats.foldl (fun wm ws => alSet wm ws.weapon ws.kills) [] }

/-- Folding a later per-file record of the same name into the accumulator:
counters add, `acc.weaponMap[ws.Weapon] += ws.Kills` for each weapon stat. -/
def addMerged (acc : MergedPlayer) (p : PlayerEventSummary) : MergedPlayer :=
  { acc with
    killCount := acc.killCount + p.killCount,
    deathCount := acc.deathCount + p.deathCount,
    teamKillCount := acc.teamKillCount + p.teamKillCount,
    weaponMap :=
      p.weaponStats.foldl (fun wm ws => wmIncr wm ws.weapon ws.kills)
        acc.weaponMap }

/-- Merging one per-file record into the shared map. -/
def mergeRecord (m : MergedMap) (p : PlayerEventSummary) : MergedMap :=
  match alLookup m p.name with
  | none => alSet m p.name (seedMerged p)
  | some acc => alSet m p.name (addMerged acc p)

/-- Merging one file's records, in slice order. -/
def mergeFile (m : MergedMap) (players : List PlayerEventSummary) : MergedMap :=
  players.foldl mergeRecord m

/-- Merging a sequence of per-file results into one map. -/
def mergeMap (fs : List (List PlayerEventSummary)) : MergedMap :=
  fs.foldl mergeFile []

/-- The collection step for one merged record: weapon map → slice sorted by
kills descending. -/
def finishMerged (mp : MergedPlayer) : PlayerEventSummary :=
  { id := mp.id, name := mp.name, side := mp.side,
    killCount := mp.killCount, deathCount := mp.deathCount,
    teamKillCount := mp.teamKillCount,
    weaponStats :=
      sortDesc (fun ws => ws.kills)
        (mp.weaponMap.map fun p => PlayerWeaponStat.mk p.1 p.2) }

/-- The merged archive output: collect the merge map (in insertion order)
and sort by kill count descending. -/
def mergeAll (fs : List (List PlayerEventSummary)) : List PlayerEventSummary :=
  sortDesc (fun p => p.killCount) ((mergeMap fs).map (fun e => finishMerged e.2))

/-! ## The pipeline with its failure policy (claim C6)

`processAllPlayerEvents` is modelled on its two effect boundaries: the
result of the directory glob (either an enumeration error or the list of
files), and, per file, the outcome of `processPlayerEvents` on that file
(either a per-file error — open, gzip, decode — or its record list).  A
failing file is skipped; only a glob failure aborts. -/

/-- The per-file outcomes of one directory scan. -/
abbrev FileOutcomes := List (Except String (List PlayerEventSummary))

/-- The worker loop: a file whose processing failed is logged and skipped,
every other file is merged into the shared map. -/
def mergeOutcomes (m : MergedMap) : FileOutcomes → MergedMap
  | [] => m
  | .error _ :: rest => mergeOutcomes m rest
  | .ok players :: rest => mergeOutcomes (mergeFile m players) rest

/-- The pipeline `processAllPlayerEvents`: fail iff the glob failed, otherwise merge
whatever files processed successfully and produce the sorted output. -/
def processAllPlayerEvents (glob : Except String FileOutcomes) :
    Except String (List PlayerEventSummary) :=
  match glob with
  | .error err => .error ("glob data dir: " ++ err)
  | .ok outcomes =>
    .ok (sortDesc (fun p => p.killCount)
      ((mergeOutcomes [] outcomes).map (fun e => finishMerged e.2)))

/-! ## The player cache -/

/-- Go `strings.ToLower` (ASCII case folding on the names in play). -/
def goToLower (s : String) : String := ⟨s.data.map Char.toLower⟩

/-- Go `strings.Contains hay needle` on the underlying characters:
`prefixB needle l` is true iff `needle` begins `l`. -/
def prefixB : List Char → List Char → Bool
  | [], _ => true
  | _ :: _, [] => false
  | a :: as, b :: bs => a == b && prefixB as bs

/-- True iff `needle` occurs contiguously inside `hay`. -/
def substrB (needle : List Char) : List Char → Bool
  | [] => prefixB needle []
  | c :: rest => prefixB needle (c :: rest) || substrB needle rest

/-- Go `strings.Contains(s, sub)`. -/
def goContains (s sub : String) : Bool := substrB sub.data s.data

/-- The by-name index: `byName[strings.ToLower(stats[i].Name)] = &stats[i]`,
in slice order (later entries overwrite earlier ones). -/
def buildIndex (stats : List PlayerEventSummary) :
    List (String × PlayerEventSummary) :=
  stats.foldl (fun m p => alSet m (goToLower p.name) p) []

/-- The substring fallback loop of `GetByName`: return the first entry
whose key contains the normalised query. -/
def findContain (idx : List (String × PlayerEventSummary)) (q : String) :
    Option PlayerEventSummary :=
  match idx with
  | [] => none
  | (k, p) :: rest => if goContains k q then some p else findContain rest q

/-- The lookup logic of `PlayerCache.GetByName` on a built index: exact
match against the lowercased-name index first, then substring containment,
then not-found (`nil`). -/
def getByName (idx : List (String × PlayerEventSummary)) (q : String) :
    Option PlayerEventSummary :=
  let normalised := goToLower q
  match alLookup idx normalised with
  | some p => some p
  | none => findContain idx normalised

/-- The fields of `PlayerCache` that evolve (the mutex only orders access;
the state it guards is `allStats`, `byName`, `built`). -/
structure CacheState where
  allStats : List PlayerEventSummary
  byName : List (String × PlayerEventSummary)
  built : Bool
deriving DecidableEq

/-- Go constructor `NewPlayerCache`: the cache starts not built. -/
def NewPlayerCache : CacheState :=
  { allStats := [], byName := [], built := false }

/-- Method `ensureBuilt`, with the outcome of the directory scan it would perform
passed explicitly: if already built do nothing, otherwise run
`processAllPlayerEvents`; on error leave the state untouched, on success
store the stats, the lowercased-name index, and set `built`. -/
def ensureBuilt (c : CacheState) (glob : Except String FileOutcomes) :
    Except String Unit × CacheState :=
  if c.built then (.ok (), c)
  else
    match processAllPlayerEvents glob with
    | .error e => (.error e, c)
    | .ok stats =>
      (.ok (), { allStats := stats, byName := buildIndex stats, built := true })

/-- Method `PlayerCache.GetAll`. -/
def GetAll (c : CacheState) (glob : Except String FileOutcomes) :
    Except String (List PlayerEventSummary) × CacheState :=
  match ensureBuilt c glob with
  | (.error e, c') => (.error e, c')
  | (.ok _, c') => (.ok c'.allStats, c')

/-- Method `PlayerCache.GetByName` (the not-found result is `none`, not an
error). -/
def GetByName (c : CacheState) (glob : Except String FileOutcomes)
    (playerName : String) :
    Except String (Option PlayerEventSummary) × CacheState :=
  match ensureBuilt c glob with
  | (.error e, c') => (.error e, c')
  | (.ok _, c') => (.ok (getByName c'.byName playerName), c')

/-- Method `PlayerCache.Invalidate`. -/
def Invalidate (_c : CacheState) : CacheState :=
  { allStats := [], byName := [], built := false }

/-! ## Association-list lemmas -/

theorem alLookup_alSet_self {κ ν : Type} [DecidableEq κ]
    (m : List (κ × ν)) (k : κ) (v : ν) :
    alLookup (alSet m k v) k = some v := by
  induction m with
  | nil => simp [alSet, alLookup]
  | cons e rest ih =>
    obtain ⟨k', w⟩ := e
    by_cases h : k' = k
    · simp [alSet, alLookup, h]
    · simp [alSet, alLookup, h, ih]

theorem alLookup_alSet_ne {κ ν : Type} [DecidableEq κ]
    (m : List (κ × ν)) (k q : κ) (v : ν) (h : q ≠ k) :
    alLookup (alSet m k v) q = alLookup m q := by
  induction m with
  | nil => simp [alSet, alLookup, Ne.symm h]
  | cons e rest ih =>
    obtain ⟨k', w⟩ := e
    by_cases hk : k' = k
    · subst hk
      simp [alSet, alLookup, Ne.symm h]
    · simp only [alSet, if_neg hk, alLookup]
      by_cases hq : k' = q
      · simp [hq]
      · simp [hq, ih]

theorem alKeys_alSet_mem {κ ν : Type} [DecidableEq κ]
    (m : List (κ × ν)) (k : κ) (v : ν) (h : k ∈ alKeys m) :
    alKeys (alSet m k v) = alKeys m := by
  induction m with
  | nil => simp [alKeys] at h
  | cons e rest ih =>
    obtain ⟨k', w⟩ := e
    by_cases hk : k' = k
    · simp [alSet, alKeys, hk]
    · have h' : k ∈ alKeys rest := by
        simp only [alKeys, List.map_cons, List.mem_cons] at h
        rcases h with h | h
        · exact absurd h.symm hk
        · exact h
      have h2 := ih h'
      simp only [alKeys] at h2
      simp only [alSet, if_neg hk, alKeys, List.map_cons, h2]

theorem alKeys_alSet_not_mem {κ ν : Type} [DecidableEq κ]
    (m : List (κ × ν)) (k : κ) (v : ν) (h : k ∉ alKeys m) :
    alKeys (alSet m k v) = alKeys m ++ [k] := by
  induction m with
  | nil => simp [alSet, alKeys]
  | cons e rest ih =>
    obtain ⟨k', w⟩ := e
    simp only [alKeys, List.map_cons, List.mem_cons] at h
    push_neg at h
    have h2 := ih h.2
    simp only [alKeys] at h2
    simp only [alSet, if_neg (Ne.symm h.1), alKeys, List.map_cons, h2,
      List.cons_append]

theorem alSet_append_of_not_mem {κ ν : Type} [DecidableEq κ]
    (m : List (κ × ν)) (k : κ) (v : ν) (h : k ∉ alKeys m) :
    alSet m k v = m ++ [(k, v)] := by
  induction m with
  | nil => simp [alSet]
  | cons e rest ih =>
    obtain ⟨k', w⟩ := e
    simp only [alKeys, List.map_cons, List.mem_cons] at h
    push_neg at h
    simp only [alSet, if_neg (Ne.symm h.1), List.cons_append]
    rw [ih h.2]

theorem alLookup_eq_none_of_not_mem {κ ν : Type} [DecidableEq κ]
    (m : List (κ × ν)) (k : κ) (h : k ∉ alKeys m) :
    alLookup m k = none := by
  induction m with
  | nil => rfl
  | cons e rest ih =>
    obtain ⟨k', w⟩ := e
    simp only [alKeys, List.map_cons, List.mem_cons] at h
    push_neg at h
    simp [alLookup, Ne.symm h.1, ih h.2]

theorem alLookup_mem_keys {κ ν : Type} [DecidableEq κ]
    (m : List (κ × ν)) (k : κ) (v : ν) (h : alLookup m k = some v) :
    k ∈ alKeys m := by
  by_contra hk
  rw [alLookup_eq_none_of_not_mem m k hk] at h
  exact Option.noConfusion h

theorem alLookup_mem {κ ν : Type} [DecidableEq κ]
    (m : List (κ × ν)) (k : κ) (v : ν) (h : alLookup m k = some v) :
    (k, v) ∈ m := by
  induction m with
  | nil => exact absurd h (by simp [alLookup])
  | cons e rest ih =>
    obtain ⟨k', w⟩ := e
    by_cases hk : k' = k
    · subst hk
      simp [alLookup] at h
      simp [h]
    · simp [alLookup, hk] at h
      exact List.mem_cons_of_mem _ (ih h)

theorem mem_alSet {κ ν : Type} [DecidableEq κ]
    (m : List (κ × ν)) (k : κ) (v : ν) (e : κ × ν)
    (h : e ∈ alSet m k v) : e = (k, v) ∨ e ∈ m := by
  induction m with
  | nil => simpa [alSet] using h
  | cons hd rest ih =>
    obtain ⟨k', w⟩ := hd
    by_cases hk : k' = k
    · simp [alSet, hk] at h
      rcases h with h | h
      · left
        simp [h]
      · right
        exact List.mem_cons_of_mem _ h
    · simp only [alSet, if_neg hk, List.mem_cons] at h
      rcases h with h | h
      · right
        simp [h]
      · rcases ih h with h' | h'
        · exact Or.inl h'
        · exact Or.inr (List.mem_cons_of_mem _ h')

theorem nodup_alKeys_alSet {κ ν : Type} [DecidableEq κ]
    (m : List (κ × ν)) (k : κ) (v : ν) (h : (alKeys m).Nodup) :
    (alKeys (alSet m k v)).Nodup := by
  by_cases hk : k ∈ alKeys m
  · rw [alKeys_alSet_mem m k v hk]
    exact h
  · rw [alKeys_alSet_not_mem m k v hk]
    simp [List.nodup_append, h, hk]

theorem wmValuesSum_wmIncr (m : List (String × Int)) (k : String) (d : Int) :
    wmValuesSum (wmIncr m k d) = wmValuesSum m + d := by
  induction m with
  | nil => simp [wmIncr, alSet, alLookup, wmValuesSum]
  | cons e rest ih =>
    obtain ⟨k', w⟩ := e
    by_cases hk : k' = k
    · subst hk
      simp [wmIncr, alSet, alLookup, wmValuesSum]
      ring
    · simp only [wmIncr, alSet, alLookup, if_neg hk,
        if_neg (fun hh : k' = k => hk hh)] at ih ⊢
      simp only [wmValuesSum, List.map_cons, List.sum_cons] at ih ⊢
      omega

/-! ## Characterising one kill event -/

theorem alLookup_alSet {κ ν : Type} [DecidableEq κ]
    (m : List (κ × ν)) (k : κ) (v : ν) (q : κ) :
    alLookup (alSet m k v) q = if q = k then some v else alLookup m q := by
  by_cases h : q = k
  · subst h
    simp [alLookup_alSet_self]
  · simp [h, alLookup_alSet_ne m k q v h]

/-- Team-kill counter of the tracked player `i` (0 when untracked). -/
def lookTk (m : PlayerMap) (i : Int) : Int :=
  match alLookup m i with
  | some a => a.teamKillCount
  | none => 0

/-- Kill counter of the tracked player `i` (0 when untracked). -/
def lookKill (m : PlayerMap) (i : Int) : Int :=
  match alLookup m i with
  | some a => a.killCount
  | none => 0

/-- Death counter of the tracked player `i` (0 when untracked). -/
def lookDeath (m : PlayerMap) (i : Int) : Int :=
  match alLookup m i with
  | some a => a.deathCount
  | none => 0

/-- The team-kill condition of the event loop: causer and victim both
resolve to tracked players, their ids differ, and their sides agree. -/
def tkCond (m : PlayerMap) (killerID victimID : Int) : Bool :=
  match alLookup m killerID, alLookup m victimID with
  | some killer, some victim =>
    decide (killerID ≠ victimID ∧ killer.side = victim.side)
  | _, _ => false

theorem lookTk_alSet (m : PlayerMap) (i : Int) (a : PlayerAcc) (q : Int) :
    lookTk (alSet m i a) q = if q = i then a.teamKillCount else lookTk m q := by
  simp only [lookTk, alLookup_alSet]
  by_cases h : q = i <;> simp [h]

theorem lookKill_alSet (m : PlayerMap) (i : Int) (a : PlayerAcc) (q : Int) :
    lookKill (alSet m i a) q = if q = i then a.killCount else lookKill m q := by
  simp only [lookKill, alLookup_alSet]
  by_cases h : q = i <;> simp [h]

theorem lookDeath_alSet (m : PlayerMap) (i : Int) (a : PlayerAcc) (q : Int) :
    lookDeath (alSet m i a) q = if q = i then a.deathCount else lookDeath m q := by
  simp only [lookDeath, alLookup_alSet]
  by_cases h : q = i <;> simp [h]

theorem lookTk_applyKill (m : PlayerMap) (killerID victimID : Int)
    (weapon : String) (q : Int) :
    lookTk (applyKill m killerID victimID weapon) q =
      lookTk m q +
        (if q = killerID ∧ tkCond m killerID victimID = true then 1 else 0) := by
  unfold applyKill
  rcases h1 : alLookup m killerID with _ | killer
  · simp only [h1]
    rcases h2 : alLookup m victimID with _ | victim
    · simp [h2, tkCond, h1]
    · simp only [h2]
      rw [lookTk_alSet]
      by_cases hq : q = victimID <;>
        simp [hq, lookTk, h2, tkCond, h1]
  · simp only [h1]
    rcases h2 : alLookup m victimID with _ | victim
    · have h2' :
          alLookup
            (alSet m killerID
              { killer with
                killCount := killer.killCount + 1,
                weaponMap := wmIncr killer.weaponMap weapon 1,
                teamKillCount := killer.teamKillCount + 0 }) victimID = none := by
        rw [alLookup_alSet]
        by_cases hv : victimID = killerID
        · subst hv
          rw [h1] at h2
          exact absurd h2 (by simp)
        · simp [hv, h2]
      simp only [h2, h2']
      rw [lookTk_alSet]
      by_cases hq : q = killerID <;> simp [hq, lookTk, h1, tkCond, h2]
    · -- both killer and victim tracked
      by_cases hv : victimID = killerID
      · -- self-kill: the "victim" alias is the updated killer record
        simp only [h2]
        subst hv
        rw [h1] at h2
        injection h2 with h2
        subst h2
        rw [if_neg (by simp : ¬(victimID ≠ victimID ∧ killer.side = killer.side))]
        simp only [alLookup_alSet_self]
        rw [lookTk_alSet, lookTk_alSet]
        by_cases hq : q = victimID <;>
          simp [hq, lookTk, h1, tkCond]
      · simp only [h2]
        set tkv : Int :=
          if killerID ≠ victimID ∧ killer.side = victim.side then 1 else 0 with htkv
        have h2' :
            alLookup
              (alSet m killerID
                { killer with
                  killCount := killer.killCount + 1,
                  weaponMap := wmIncr killer.weaponMap weapon 1,
                  teamKillCount := killer.teamKillCount + tkv }) victimID =
              some victim := by
          rw [alLookup_alSet, if_neg hv, h2]
        simp only [h2']
        rw [lookTk_alSet, lookTk_alSet]
        by_cases hq : q = victimID
        · subst hq
          simp only [if_neg hv]
          simp [lookTk, h2, tkCond, h1, hv]
        · by_cases hq2 : q = killerID
          · subst hq2
            simp [hq, hv, lookTk, h1, tkCond, h2, htkv, decide_eq_true_eq,
              Ne.symm hv]
          · simp [hq, hq2, tkCond, h1, h2]

/-! ## The per-accumulator invariant and how the event loop evolves records -/

/-- The accumulator invariant: the kill counter equals the sum of the
weapon-map values, and the weapon map has no duplicate keys. -/
def accInv (a : PlayerAcc) : Prop :=
  a.killCount = wmValuesSum a.weaponMap ∧ (alKeys a.weaponMap).Nodup

/-- One accumulator evolves into another: identity fields are unchanged and
the invariant is preserved. -/
def accEvol (a0 a : PlayerAcc) : Prop :=
  a.id = a0.id ∧ a.name = a0.name ∧ a.side = a0.side ∧ (accInv a0 → accInv a)

theorem accEvol_refl (a : PlayerAcc) : accEvol a a :=
  ⟨rfl, rfl, rfl, id⟩

theorem accEvol_trans {a0 a1 a2 : PlayerAcc} (h1 : accEvol a0 a1)
    (h2 : accEvol a1 a2) : accEvol a0 a2 :=
  ⟨h2.1.trans h1.1, h2.2.1.trans h1.2.1, h2.2.2.1.trans h1.2.2.1,
    fun h => h2.2.2.2 (h1.2.2.2 h)⟩

/-- Every entry of `m` descends from an entry of `m0` with the same key. -/
def MapEvol (m0 m : PlayerMap) : Prop :=
  ∀ e ∈ m, ∃ e0 ∈ m0, e.1 = e0.1 ∧ accEvol e0.2 e.2

theorem MapEvol_refl (m : PlayerMap) : MapEvol m m :=
  fun e he => ⟨e, he, rfl, accEvol_refl e.2⟩

theorem MapEvol_trans {m0 m1 m2 : PlayerMap} (h1 : MapEvol m0 m1)
    (h2 : MapEvol m1 m2) : MapEvol m0 m2 := by
  intro e he
  obtain ⟨e1, he1, hk1, hev1⟩ := h2 e he
  obtain ⟨e0, he0, hk0, hev0⟩ := h1 e1 he1
  exact ⟨e0, he0, hk1.trans hk0, accEvol_trans hev0 hev1⟩

theorem MapEvol_alSet {m0 m : PlayerMap} (h : MapEvol m0 m) (k : Int)
    (v : PlayerAcc) (hv : ∃ e0 ∈ m0, e0.1 = k ∧ accEvol e0.2 v) :
    MapEvol m0 (alSet m k v) := by
  intro e he
  rcases mem_alSet m k v e he with rfl | he'
  · obtain ⟨e0, he0, hk, hev⟩ := hv
    exact ⟨e0, he0, hk.symm, hev⟩
  · exact h e he'

theorem accEvol_killerUpd (killer : PlayerAcc) (weapon : String) (tk : Int) :
    accEvol killer
      { killer with
        killCount := killer.killCount + 1,
        weaponMap := wmIncr killer.weaponMap weapon 1,
        teamKillCount := killer.teamKillCount + tk } := by
  refine ⟨rfl, rfl, rfl, fun h => ⟨?_, ?_⟩⟩
  · rw [wmValuesSum_wmIncr, ← h.1]
  · exact nodup_alKeys_alSet _ _ _ h.2

theorem accEvol_deathUpd (victim : PlayerAcc) :
    accEvol victim { victim with deathCount := victim.deathCount + 1 } :=
  ⟨rfl, rfl, rfl, fun h => h⟩

theorem MapEvol_applyKill (m : PlayerMap) (killerID victimID : Int)
    (weapon : String) : MapEvol m (applyKill m killerID victimID weapon) := by
  unfold applyKill
  rcases h1 : alLookup m killerID with _ | killer
  · simp only [h1]
    rcases h2 : alLookup m victimID with _ | victim
    · simp only [h2]
      exact MapEvol_refl m
    · simp only [h2]
      exact MapEvol_alSet (MapEvol_refl m) _ _
        ⟨(victimID, victim), alLookup_mem m _ _ h2, rfl, accEvol_deathUpd victim⟩
  · simp only [h1]
    have hm1 : MapEvol m
        (alSet m killerID
          { killer with
            killCount := killer.killCount + 1,
            weaponMap := wmIncr killer.weaponMap weapon 1,
            teamKillCount := killer.teamKillCount +
              match alLookup m victimID with
              | some victim =>
                if killerID ≠ victimID ∧ killer.side = victim.side then 1 else 0
              | none => 0 }) :=
      MapEvol_alSet (MapEvol_refl m) _ _
        ⟨(killerID, killer), alLookup_mem m _ _ h1, rfl,
          accEvol_killerUpd killer weapon _⟩
    rcases h2 : alLookup (alSet m killerID _) victimID with _ | victim
    · exact hm1
    · refine MapEvol_trans hm1 (MapEvol_alSet (MapEvol_refl _) _ _ ?_)
      exact ⟨(victimID, victim), alLookup_mem _ _ _ h2, rfl,
        accEvol_deathUpd victim⟩

theorem MapEvol_processEvent (m : PlayerMap) (rawEvent : List JsonVal) :
    MapEvol m (processEvent m rawEvent) := by
  unfold processEvent
  split
  · exact MapEvol_refl m
  · split
    · split
      · split
        · split
          · exact MapEvol_refl m
          · split
            · exact MapEvol_applyKill _ _ _ _
            · exact MapEvol_refl m
        · exact MapEvol_refl m
      · exact MapEvol_refl m
    · exact MapEvol_refl m

theorem MapEvol_runEvents (m : PlayerMap) (events : List (List JsonVal)) :
    MapEvol m (runEvents m events) := by
  induction events generalizing m with
  | nil => exact MapEvol_refl m
  | cons ev rest ih =>
    exact MapEvol_trans (MapEvol_processEvent m ev) (ih (processEvent m ev))

/-- Provenance of the entity pass: every entry of the built player map is
the fresh accumulator of some retained player entity. -/
theorem buildPlayerMap_mem (entities : List CaptureEntity)
    (e : Int × PlayerAcc) (he : e ∈ buildPlayerMap entities) :
    ∃ ent ∈ entities, e.2 = freshAcc ent ∧ ent.type = "unit" ∧
      ent.isPlayer = 1 := by
  suffices h : ∀ (m0 : PlayerMap) (l : List CaptureEntity) (e : Int × PlayerAcc),
      e ∈ l.foldl
        (fun m e' =>
          if e'.type = "unit" ∧ e'.isPlayer = 1 then alSet m e'.id (freshAcc e')
          else m) m0 →
      e ∈ m0 ∨ ∃ ent ∈ l, e.2 = freshAcc ent ∧ ent.type = "unit" ∧
        ent.isPlayer = 1 by
    rcases h [] entities e he with h' | h'
    · exact absurd h' (List.not_mem_nil e)
    · exact h'
  intro m0 l
  induction l generalizing m0 with
  | nil =>
    intro e he
    exact Or.inl he
  | cons ent rest ih =>
    intro e he
    simp only [List.foldl_cons] at he
    by_cases hc : ent.type = "unit" ∧ ent.isPlayer = 1
    · rw [if_pos hc] at he
      rcases ih (alSet m0 ent.id (freshAcc ent)) e he with h' | h'
      · rcases mem_alSet m0 ent.id (freshAcc ent) e h' with rfl | h''
        · exact Or.inr ⟨ent, List.mem_cons_self ent rest, rfl, hc.1, hc.2⟩
        · exact Or.inl h''
      · obtain ⟨ent', hent', hrest⟩ := h'
        exact Or.inr ⟨ent', List.mem_cons_of_mem _ hent', hrest⟩
    · rw [if_neg hc] at he
      rcases ih m0 e he with h' | h'
      · exact Or.inl h'
      · obtain ⟨ent', hent', hrest⟩ := h'
        exact Or.inr ⟨ent', List.mem_cons_of_mem _ hent', hrest⟩

theorem freshAcc_accInv (ent : CaptureEntity) : accInv (freshAcc ent) := by
  constructor <;> simp [freshAcc, wmValuesSum, alKeys]

/-! ## The collection step -/

/-- What claims C1 and C2 need of an output record: kill counter = sum of
weapon kills, and no duplicate weapon keys. -/
def recordOK (r : PlayerEventSummary) : Prop :=
  r.killCount = (r.weaponStats.map (fun ws => ws.kills)).sum ∧
  (r.weaponStats.map (fun ws => ws.weapon)).Nodup

theorem weaponSlice_kills_sum (wm : List (String × Int)) :
    ((sortDesc (fun ws => ws.kills)
        (wm.map fun p => PlayerWeaponStat.mk p.1 p.2)).map
      (fun ws => ws.kills)).sum = wmValuesSum wm := by
  have hperm :=
    (sortDesc_perm (fun ws => ws.kills)
      (wm.map fun p => PlayerWeaponStat.mk p.1 p.2)).map (fun ws => ws.kills)
  have hfun : ((fun ws : PlayerWeaponStat => ws.kills) ∘
      fun p : String × Int => PlayerWeaponStat.mk p.1 p.2) = Prod.snd :=
    funext fun p => rfl
  rw [hperm.sum_eq, List.map_map, hfun]
  rfl

theorem weaponSlice_weapons_perm (wm : List (String × Int)) :
    List.Perm
      ((sortDesc (fun ws => ws.kills)
          (wm.map fun p => PlayerWeaponStat.mk p.1 p.2)).map
        (fun ws => ws.weapon))
      (alKeys wm) := by
  have hperm :=
    (sortDesc_perm (fun ws => ws.kills)
      (wm.map fun p => PlayerWeaponStat.mk p.1 p.2)).map (fun ws => ws.weapon)
  refine hperm.trans ?_
  simp only [List.map_map]
  exact List.Perm.of_eq (by simp [alKeys, Function.comp])

theorem finishAcc_recordOK (a : PlayerAcc) (h : accInv a) :
    recordOK (finishAcc a) := by
  constructor
  · simpa [finishAcc, weaponSlice_kills_sum] using h.1
  · exact ((weaponSlice_weapons_perm a.weaponMap).nodup_iff).2 h.2

/-- Provenance of a per-capture output record: it satisfies `recordOK`, and
its name/side/id are those of some retained player entity (streaming
variant: the static entity fields, untouched by events). -/
theorem processCapture_provenance (c : CaptureData) (r : PlayerEventSummary)
    (hr : r ∈ processCapture c) :
    recordOK r ∧ ∃ ent ∈ c.entities, r.name = ent.name ∧ r.side = ent.side ∧
      ent.type = "unit" ∧ ent.isPlayer = 1 := by
  unfold processCapture collectPlayers at hr
  rw [mem_sortDesc] at hr
  obtain ⟨a, ha, rfl⟩ := List.mem_map.1 hr
  obtain ⟨e, he, rfl⟩ := List.mem_map.1 ha
  obtain ⟨e0, he0, _, hev⟩ :=
    MapEvol_runEvents (buildPlayerMap c.entities) c.events e he
  obtain ⟨ent, hent, hfresh, htype, hplayer⟩ :=
    buildPlayerMap_mem c.entities e0 he0
  have hinv : accInv e.2 := hev.2.2.2 (hfresh ▸ freshAcc_accInv ent)
  refine ⟨finishAcc_recordOK e.2 hinv, ent, hent, ?_, ?_, htype, hplayer⟩
  · show e.2.name = ent.name
    rw [hev.2.1, hfresh]
    rfl
  · show e.2.side = ent.side
    rw [hev.2.2.1, hfresh]
    rfl

/-! ## Totals read off records, maps and outputs -/

/-- Kills attributed to weapon `w` in a weapon-stat slice. -/
def wsum (stats : List PlayerWeaponStat) (w : String) : Int :=
  ((stats.filter (fun ws => ws.weapon == w)).map (fun ws => ws.kills)).sum

/-- Total kill count of the records named `n` in an output list. -/
def killOfName (l : List PlayerEventSummary) (n : String) : Int :=
  ((l.filter (fun r => r.name == n)).map (fun r => r.killCount)).sum

/-- Total death count of the records named `n` in an output list. -/
def deathOfName (l : List PlayerEventSummary) (n : String) : Int :=
  ((l.filter (fun r => r.name == n)).map (fun r => r.deathCount)).sum

/-- Total team-kill count of the records named `n` in an output list. -/
def tkOfName (l : List PlayerEventSummary) (n : String) : Int :=
  ((l.filter (fun r => r.name == n)).map (fun r => r.teamKillCount)).sum

/-- Total kills with weapon `w` of the records named `n` in an output list. -/
def weaponOfName (l : List PlayerEventSummary) (n : String) (w : String) : Int :=
  ((l.filter (fun r => r.name == n)).map (fun r => wsum r.weaponStats w)).sum

/-- Kill counter of the merged record named `n` (0 when absent). -/
def recKill (m : MergedMap) (n : String) : Int :=
  match alLookup m n with
  | some mp => mp.killCount
  | none => 0

/-- Death counter of the merged record named `n` (0 when absent). -/
def recDeath (m : MergedMap) (n : String) : Int :=
  match alLookup m n with
  | some mp => mp.deathCount
  | none => 0

/-- Team-kill counter of the merged record named `n` (0 when absent). -/
def recTk (m : MergedMap) (n : String) : Int :=
  match alLookup m n with
  | some mp => mp.teamKillCount
  | none => 0

/-- Weapon-`w` kills of the merged record named `n` (0 when absent). -/
def recWeapon (m : MergedMap) (n : String) (w : String) : Int :=
  match alLookup m n with
  | some mp => (alLookup mp.weaponMap w).getD 0
  | none => 0

theorem wsum_nil (w : String) : wsum [] w = 0 := rfl

theorem wsum_cons (s : PlayerWeaponStat) (rest : List PlayerWeaponStat)
    (w : String) :
    wsum (s :: rest) w = (if s.weapon = w then s.kills else 0) + wsum rest w := by
  unfold wsum
  rw [List.filter_cons]
  by_cases hw : s.weapon = w
  · simp [hw]
  · simp [hw]

theorem wsum_eq_zero_of_not_mem (stats : List PlayerWeaponStat) (w : String)
    (h : ∀ ws ∈ stats, ws.weapon ≠ w) : wsum stats w = 0 := by
  induction stats with
  | nil => rfl
  | cons s rest ih =>
    rw [wsum_cons, if_neg (h s (List.mem_cons_self s rest)),
      ih (fun ws hws => h ws (List.mem_cons_of_mem s hws))]
    rfl

theorem alLookup_wmIncr (m : List (String × Int)) (k : String) (d : Int)
    (q : String) :
    (alLookup (wmIncr m k d) q).getD 0 =
      (alLookup m q).getD 0 + (if q = k then d else 0) := by
  unfold wmIncr
  rw [alLookup_alSet]
  by_cases h : q = k
  · subst h
    simp
  · simp [h]

/-- Weapon lookup across the additive fold used when merging a later
occurrence: contributions add, no duplicate-key assumption needed. -/
theorem incrFold_lookup (stats : List PlayerWeaponStat)
    (m0 : List (String × Int)) (w : String) :
    (alLookup
        (stats.foldl (fun wm ws => wmIncr wm ws.weapon ws.kills) m0)
        w).getD 0 =
      (alLookup m0 w).getD 0 + wsum stats w := by
  induction stats generalizing m0 with
  | nil => simp [wsum_nil]
  | cons s rest ih =>
    simp only [List.foldl_cons]
    rw [ih, alLookup_wmIncr, wsum_cons]
    by_cases h : w = s.weapon
    · simp only [if_pos h, if_pos h.symm]
      ring
    · rw [if_neg h, if_neg (fun hh : s.weapon = w => h hh.symm)]
      ring

/-- Weapon lookup across the assignment fold used when seeding a merged
record; faithful to the Go code only the last write survives, so the
duplicate-free hypothesis is what makes it the sum. -/
theorem seedFold_lookup (stats : List PlayerWeaponStat)
    (m0 : List (String × Int)) (w : String)
    (h : (stats.map (fun ws => ws.weapon)).Nodup) :
    (alLookup (stats.foldl (fun wm ws => alSet wm ws.weapon ws.kills) m0)
        w).getD 0 =
      if w ∈ stats.map (fun ws => ws.weapon) then wsum stats w
      else (alLookup m0 w).getD 0 := by
  induction stats generalizing m0 with
  | nil => simp [wsum_nil]
  | cons s rest ih =>
    simp only [List.map_cons, List.nodup_cons] at h
    simp only [List.foldl_cons]
    rw [ih _ h.2, wsum_cons]
    by_cases hw : w = s.weapon
    · rw [hw]
      have hnot : s.weapon ∉ rest.map (fun ws => ws.weapon) := h.1
      have hz : wsum rest s.weapon = 0 :=
        wsum_eq_zero_of_not_mem rest s.weapon (fun ws hws hc =>
          hnot (hc ▸ List.mem_map_of_mem (fun ws => ws.weapon) hws))
      rw [if_neg hnot, alLookup_alSet_self]
      simp [hz]
    · rw [alLookup_alSet_ne _ _ _ _ hw]
      rw [if_neg (fun hh : s.weapon = w => hw hh.symm)]
      simp only [List.map_cons, List.mem_cons]
      by_cases hmem : w ∈ rest.map (fun ws => ws.weapon)
      · simp [hmem, fun hh : w = s.weapon => hw hh]
      · simp [hmem, fun hh : w = s.weapon => hw hh]

theorem incrFold_sum (stats : List PlayerWeaponStat)
    (m0 : List (String × Int)) :
    wmValuesSum (stats.foldl (fun wm ws => wmIncr wm ws.weapon ws.kills) m0) =
      wmValuesSum m0 + (stats.map (fun ws => ws.kills)).sum := by
  induction stats generalizing m0 with
  | nil => simp
  | cons s rest ih =>
    simp only [List.foldl_cons, List.map_cons, List.sum_cons]
    rw [ih, wmValuesSum_wmIncr]
    ring

theorem seedFold_sum (stats : List PlayerWeaponStat)
    (m0 : List (String × Int))
    (hfresh : ∀ ws ∈ stats, ws.weapon ∉ alKeys m0)
    (h : (stats.map (fun ws => ws.weapon)).Nodup) :
    wmValuesSum (stats.foldl (fun wm ws => alSet wm ws.weapon ws.kills) m0) =
      wmValuesSum m0 + (stats.map (fun ws => ws.kills)).sum := by
  induction stats generalizing m0 with
  | nil => simp
  | cons s rest ih =>
    simp only [List.map_cons, List.nodup_cons] at h
    simp only [List.foldl_cons, List.map_cons, List.sum_cons]
    have hs : s.weapon ∉ alKeys m0 := hfresh s (List.mem_cons_self s rest)
    have hkeys : alKeys (alSet m0 s.weapon s.kills) = alKeys m0 ++ [s.weapon] :=
      alKeys_alSet_not_mem m0 s.weapon s.kills hs
    have hfresh' : ∀ ws ∈ rest, ws.weapon ∉ alKeys (alSet m0 s.weapon s.kills) := by
      intro ws hws
      rw [hkeys]
      simp only [List.mem_append, List.mem_singleton]
      push_neg
      refine ⟨hfresh ws (List.mem_cons_of_mem s hws), fun hc => ?_⟩
      exact h.1 (hc ▸ List.mem_map_of_mem (fun ws => ws.weapon) hws)
    rw [ih _ hfresh' h.2]
    have hsum : wmValuesSum (alSet m0 s.weapon s.kills) =
        wmValuesSum m0 + s.kills := by
      rw [alSet_append_of_not_mem m0 s.weapon s.kills hs]
      simp [wmValuesSum]
    rw [hsum]
    ring

theorem foldSet_nodup_keys (stats : List PlayerWeaponStat)
    (m0 : List (String × Int)) (h : (alKeys m0).Nodup) :
    (alKeys (stats.foldl (fun wm ws => alSet wm ws.weapon ws.kills) m0)).Nodup := by
  induction stats generalizing m0 with
  | nil => exact h
  | cons s rest ih =>
    simp only [List.foldl_cons]
    exact ih _ (nodup_alKeys_alSet _ _ _ h)

theorem foldIncr_nodup_keys (stats : List PlayerWeaponStat)
    (m0 : List (String × Int)) (h : (alKeys m0).Nodup) :
    (alKeys (stats.foldl (fun wm ws => wmIncr wm ws.weapon ws.kills) m0)).Nodup := by
  induction stats generalizing m0 with
  | nil => exact h
  | cons s rest ih =>
    simp only [List.foldl_cons]
    exact ih _ (nodup_alKeys_alSet _ _ _ h)

/-! ## How one merge step moves the totals -/

theorem recKill_mergeRecord (m : MergedMap) (p : PlayerEventSummary)
    (n : String) :
    recKill (mergeRecord m p) n =
      recKill m n + (if p.name = n then p.killCount else 0) := by
  unfold mergeRecord
  rcases hl : alLookup m p.name with _ | acc
  · by_cases hn : n = p.name
    · subst hn
      simp [recKill, alLookup_alSet_self, hl, seedMerged]
    · rw [if_neg (fun hh : p.name = n => hn hh.symm)]
      simp [recKill, alLookup_alSet_ne m p.name n _ hn]
  · by_cases hn : n = p.name
    · subst hn
      simp [recKill, alLookup_alSet_self, hl, addMerged]
    · rw [if_neg (fun hh : p.name = n => hn hh.symm)]
      simp [recKill, alLookup_alSet_ne m p.name n _ hn]

theorem recDeath_mergeRecord (m : MergedMap) (p : PlayerEventSummary)
    (n : String) :
    recDeath (mergeRecord m p) n =
      recDeath m n + (if p.name = n then p.deathCount else 0) := by
  unfold mergeRecord
  rcases hl : alLookup m p.name with _ | acc
  · by_cases hn : n = p.name
    · subst hn
      simp [recDeath, alLookup_alSet_self, hl, seedMerged]
    · rw [if_neg (fun hh : p.name = n => hn hh.symm)]
      simp [recDeath, alLookup_alSet_ne m p.name n _ hn]
  · by_cases hn : n = p.name
    · subst hn
      simp [recDeath, alLookup_alSet_self, hl, addMerged]
    · rw [if_neg (fun hh : p.name = n => hn hh.symm)]
      simp [recDeath, alLookup_alSet_ne m p.name n _ hn]

theorem recTk_mergeRecord (m : MergedMap) (p : PlayerEventSummary)
    (n : String) :
    recTk (mergeRecord m p) n =
      recTk m n + (if p.name = n then p.teamKillCount else 0) := by
  unfold mergeRecord
  rcases hl : alLookup m p.name with _ | acc
  · by_cases hn : n = p.name
    · subst hn
      simp [recTk, alLookup_alSet_self, hl, seedMerged]
    · rw [if_neg (fun hh : p.name = n => hn hh.symm)]
      simp [recTk, alLookup_alSet_ne m p.name n _ hn]
  · by_cases hn : n = p.name
    · subst hn
      simp [recTk, alLookup_alSet_self, hl, addMerged]
    · rw [if_neg (fun hh : p.name = n => hn hh.symm)]
      simp [recTk, alLookup_alSet_ne m p.name n _ hn]

theorem recWeapon_mergeRecord (m : MergedMap) (p : PlayerEventSummary)
    (n w : String) (hp : (p.weaponStats.map (fun ws => ws.weapon)).Nodup) :
    recWeapon (mergeRecord m p) n w =
      recWeapon m n w + (if p.name = n then wsum p.weaponStats w else 0) := by
  unfold mergeRecord
  rcases hl : alLookup m p.name with _ | acc
  · by_cases hn : n = p.name
    · subst hn
      simp only [recWeapon, alLookup_alSet_self, hl, seedMerged]
      rw [seedFold_lookup p.weaponStats [] w hp]
      by_cases hmem : w ∈ p.weaponStats.map (fun ws => ws.weapon)
      · simp [hmem]
      · have hz : wsum p.weaponStats w = 0 :=
          wsum_eq_zero_of_not_mem _ w (fun ws hws hc =>
            hmem (hc ▸ List.mem_map_of_mem (fun ws => ws.weapon) hws))
        simp [hmem, hz, alLookup]
    · rw [if_neg (fun hh : p.name = n => hn hh.symm)]
      simp [recWeapon, alLookup_alSet_ne m p.name n _ hn]
  · by_cases hn : n = p.name
    · subst hn
      simp only [recWeapon, alLookup_alSet_self, hl, addMerged]
      rw [incrFold_lookup p.weaponStats acc.weaponMap w]
      simp
    · rw [if_neg (fun hh : p.name = n => hn hh.symm)]
      simp [recWeapon, alLookup_alSet_ne m p.name n _ hn]

/-! ## Folding the step lemmas over files -/

theorem sumName_cons (f : PlayerEventSummary → Int) (p : PlayerEventSummary)
    (rest : List PlayerEventSummary) (n : String) :
    ((List.filter (fun r => r.name == n) (p :: rest)).map f).sum =
      (if p.name = n then f p else 0) +
        ((rest.filter (fun r => r.name == n)).map f).sum := by
  rw [List.filter_cons]
  by_cases hn : p.name = n
  · simp [hn]
  · simp [hn]

theorem sumName_append (f : PlayerEventSummary → Int)
    (l1 l2 : List PlayerEventSummary) (n : String) :
    (((l1 ++ l2).filter (fun r => r.name == n)).map f).sum =
      ((l1.filter (fun r => r.name == n)).map f).sum +
        ((l2.filter (fun r => r.name == n)).map f).sum := by
  rw [List.filter_append, List.map_append, List.sum_append]

theorem recKill_mergeFile (m : MergedMap) (ps : List PlayerEventSummary)
    (n : String) :
    recKill (mergeFile m ps) n = recKill m n + killOfName ps n := by
  induction ps generalizing m with
  | nil => simp [mergeFile, killOfName]
  | cons p rest ih =>
    show recKill (mergeFile (mergeRecord m p) rest) n = _
    rw [ih, recKill_mergeRecord]
    unfold killOfName
    rw [sumName_cons]
    ring

theorem recDeath_mergeFile (m : MergedMap) (ps : List PlayerEventSummary)
    (n : String) :
    recDeath (mergeFile m ps) n = recDeath m n + deathOfName ps n := by
  induction ps generalizing m with
  | nil => simp [mergeFile, deathOfName]
  | cons p rest ih =>
    show recDeath (mergeFile (mergeRecord m p) rest) n = _
    rw [ih, recDeath_mergeRecord]
    unfold deathOfName
    rw [sumName_cons]
    ring

theorem recTk_mergeFile (m : MergedMap) (ps : List PlayerEventSummary)
    (n : String) :
    recTk (mergeFile m ps) n = recTk m n + tkOfName ps n := by
  induction ps generalizing m with
  | nil => simp [mergeFile, tkOfName]
  | cons p rest ih =>
    show recTk (mergeFile (mergeRecord m p) rest) n = _
    rw [ih, recTk_mergeRecord]
    unfold tkOfName
    rw [sumName_cons]
    ring

theorem recWeapon_mergeFile (m : MergedMap) (ps : List PlayerEventSummary)
    (n w : String)
    (hp : ∀ p ∈ ps, (p.weaponStats.map (fun ws => ws.weapon)).Nodup) :
    recWeapon (mergeFile m ps) n w = recWeapon m n w + weaponOfName ps n w := by
  induction ps generalizing m with
  | nil => simp [mergeFile, weaponOfName]
  | cons p rest ih =>
    show recWeapon (mergeFile (mergeRecord m p) rest) n w = _
    rw [ih _ (fun q hq => hp q (List.mem_cons_of_mem p hq)),
      recWeapon_mergeRecord m p n w (hp p (List.mem_cons_self p rest))]
    unfold weaponOfName
    rw [sumName_cons]
    ring

theorem recKill_mergeMap (fs : List (List PlayerEventSummary)) (n : String) :
    recKill (mergeMap fs) n = killOfName fs.flatten n := by
  suffices h : ∀ (m0 : MergedMap),
      recKill (fs.foldl mergeFile m0) n = recKill m0 n + killOfName fs.flatten n by
    have := h []
    simpa [mergeMap, recKill, alLookup] using this
  induction fs with
  | nil => simp [killOfName]
  | cons f rest ih =>
    intro m0
    simp only [List.foldl_cons, List.flatten_cons]
    rw [ih, recKill_mergeFile]
    unfold killOfName
    rw [sumName_append]
    ring

theorem recDeath_mergeMap (fs : List (List PlayerEventSummary)) (n : String) :
    recDeath (mergeMap fs) n = deathOfName fs.flatten n := by
  suffices h : ∀ (m0 : MergedMap),
      recDeath (fs.foldl mergeFile m0) n = recDeath m0 n + deathOfName fs.flatten n by
    have := h []
    simpa [mergeMap, recDeath, alLookup] using this
  induction fs with
  | nil => simp [deathOfName]
  | cons f rest ih =>
    intro m0
    simp only [List.foldl_cons, List.flatten_cons]
    rw [ih, recDeath_mergeFile]
    unfold deathOfName
    rw [sumName_append]
    ring

theorem recTk_mergeMap (fs : List (List PlayerEventSummary)) (n : String) :
    recTk (mergeMap fs) n = tkOfName fs.flatten n := by
  suffices h : ∀ (m0 : MergedMap),
      recTk (fs.foldl mergeFile m0) n = recTk m0 n + tkOfName fs.flatten n by
    have := h []
    simpa [mergeMap, recTk, alLookup] using this
  induction fs with
  | nil => simp [tkOfName]
  | cons f rest ih =>
    intro m0
    simp only [List.foldl_cons, List.flatten_cons]
    rw [ih, recTk_mergeFile]
    unfold tkOfName
    rw [sumName_append]
    ring

theorem recWeapon_mergeMap (fs : List (List PlayerEventSummary)) (n w : String)
    (hp : ∀ f ∈ fs, ∀ p ∈ f, (p.weaponStats.map (fun ws => ws.weapon)).Nodup) :
    recWeapon (mergeMap fs) n w = weaponOfName fs.flatten n w := by
  suffices h : ∀ (m0 : MergedMap),
      recWeapon (fs.foldl mergeFile m0) n w =
        recWeapon m0 n w + weaponOfName fs.flatten n w by
    have := h []
    simpa [mergeMap, recWeapon, alLookup] using this
  induction fs with
  | nil =>
    intro m0
    simp [weaponOfName]
  | cons f rest ih =>
    intro m0
    simp only [List.foldl_cons, List.flatten_cons]
    rw [ih (fun g hg p hpp => hp g (List.mem_cons_of_mem f hg) p hpp),
      recWeapon_mergeFile m0 f n w (hp f (List.mem_cons_self f rest))]
    unfold weaponOfName
    rw [sumName_append]
    ring

/-! ## Structural invariants of the merge map -/

/-- Every merge-map entry is keyed by its record's name and carries a
duplicate-free weapon map; the map's keys are themselves duplicate-free. -/
def MergedMapOK (m : MergedMap) : Prop :=
  (∀ e ∈ m, e.2.name = e.1 ∧ (alKeys e.2.weaponMap).Nodup) ∧ (alKeys m).Nodup

theorem MergedMapOK_mergeRecord (m : MergedMap) (p : PlayerEventSummary)
    (h : MergedMapOK m) : MergedMapOK (mergeRecord m p) := by
  obtain ⟨hent, hkeys⟩ := h
  unfold mergeRecord
  rcases hl : alLookup m p.name with _ | acc
  · constructor
    · intro e he
      rcases mem_alSet m p.name (seedMerged p) e he with rfl | he'
      · exact ⟨rfl, foldSet_nodup_keys p.weaponStats []
          (by simp [alKeys])⟩
      · exact hent e he'
    · exact nodup_alKeys_alSet m p.name _ hkeys
  · constructor
    · intro e he
      rcases mem_alSet m p.name (addMerged acc p) e he with rfl | he'
      · have hacc := hent (p.name, acc) (alLookup_mem m p.name acc hl)
        exact ⟨hacc.1, foldIncr_nodup_keys p.weaponStats acc.weaponMap hacc.2⟩
      · exact hent e he'
    · exact nodup_alKeys_alSet m p.name _ hkeys

theorem MergedMapOK_mergeFile (m : MergedMap) (ps : List PlayerEventSummary)
    (h : MergedMapOK m) : MergedMapOK (mergeFile m ps) := by
  induction ps generalizing m with
  | nil => exact h
  | cons p rest ih => exact ih _ (MergedMapOK_mergeRecord m p h)

theorem MergedMapOK_mergeMap (fs : List (List PlayerEventSummary)) :
    MergedMapOK (mergeMap fs) := by
  suffices h : ∀ (m0 : MergedMap), MergedMapOK m0 →
      MergedMapOK (fs.foldl mergeFile m0) from
    h [] ⟨fun e he => absurd he (List.not_mem_nil e), by simp [alKeys]⟩
  induction fs with
  | nil => exact fun m0 h0 => h0
  | cons f rest ih =>
    intro m0 h0
    exact ih _ (MergedMapOK_mergeFile m0 f h0)

/-- Under `recordOK` inputs the merged kill counter stays the sum of the
merged weapon map. -/
def MergedSumOK (m : MergedMap) : Prop :=
  ∀ e ∈ m, e.2.killCount = wmValuesSum e.2.weaponMap

theorem MergedSumOK_mergeRecord (m : MergedMap) (p : PlayerEventSummary)
    (hp : recordOK p) (h : MergedSumOK m) : MergedSumOK (mergeRecord m p) := by
  unfold mergeRecord
  rcases hl : alLookup m p.name with _ | acc
  · intro e he
    rcases mem_alSet m p.name (seedMerged p) e he with rfl | he'
    · show p.killCount = wmValuesSum (seedMerged p).weaponMap
      simp only [seedMerged]
      rw [seedFold_sum p.weaponStats [] (by simp [alKeys]) hp.2]
      simpa [wmValuesSum] using hp.1
    · exact h e he'
  · intro e he
    rcases mem_alSet m p.name (addMerged acc p) e he with rfl | he'
    · show acc.killCount + p.killCount = wmValuesSum (addMerged acc p).weaponMap
      simp only [addMerged]
      have hacc : acc.killCount = wmValuesSum acc.weaponMap :=
        h (p.name, acc) (alLookup_mem m p.name acc hl)
      rw [incrFold_sum p.weaponStats acc.weaponMap, ← hacc, hp.1]
    · exact h e he'

theorem MergedSumOK_mergeFile (m : MergedMap) (ps : List PlayerEventSummary)
    (hp : ∀ p ∈ ps, recordOK p) (h : MergedSumOK m) :
    MergedSumOK (mergeFile m ps) := by
  induction ps generalizing m with
  | nil => exact h
  | cons p rest ih =>
    exact ih _ (fun q hq => hp q (List.mem_cons_of_mem p hq))
      (MergedSumOK_mergeRecord m p (hp p (List.mem_cons_self p rest)) h)

theorem MergedSumOK_mergeMap (fs : List (List PlayerEventSummary))
    (hp : ∀ f ∈ fs, ∀ p ∈ f, recordOK p) : MergedSumOK (mergeMap fs) := by
  suffices h : ∀ (m0 : MergedMap), MergedSumOK m0 →
      MergedSumOK (fs.foldl mergeFile m0) from
    h [] (fun e he => absurd he (List.not_mem_nil e))
  induction fs with
  | nil => exact fun m0 h0 => h0
  | cons f rest ih =>
    intro m0 h0
    exact ih (fun g hg p hpp => hp g (List.mem_cons_of_mem f hg) p hpp) _
      (MergedSumOK_mergeFile m0 f (hp f (List.mem_cons_self f rest)) h0)

/-! ## From the merge map to the sorted output -/

theorem sumName_perm (f : PlayerEventSummary → Int)
    {l1 l2 : List PlayerEventSummary} (hp : List.Perm l1 l2) (n : String) :
    ((l1.filter (fun r => r.name == n)).map f).sum =
      ((l2.filter (fun r => r.name == n)).map f).sum :=
  ((hp.filter _).map f).sum_eq

theorem sumName_eq_zero (f : PlayerEventSummary → Int)
    (l : List PlayerEventSummary) (n : String) (h : ∀ r ∈ l, r.name ≠ n) :
    ((l.filter (fun r => r.name == n)).map f).sum = 0 := by
  have : l.filter (fun r => r.name == n) = [] := by
    rw [List.filter_eq_nil_iff]
    intro r hr
    simpa using h r hr
  rw [this]
  rfl

theorem wsum_perm {l1 l2 : List PlayerWeaponStat} (hp : List.Perm l1 l2)
    (w : String) : wsum l1 w = wsum l2 w :=
  ((hp.filter _).map _).sum_eq

theorem wsum_map_mk (wm : List (String × Int)) (w : String)
    (h : (alKeys wm).Nodup) :
    wsum (wm.map fun p => PlayerWeaponStat.mk p.1 p.2) w =
      (alLookup wm w).getD 0 := by
  induction wm with
  | nil => rfl
  | cons e rest ih =>
    obtain ⟨k, v⟩ := e
    simp only [alKeys, List.map_cons, List.nodup_cons] at h
    simp only [List.map_cons]
    rw [wsum_cons]
    by_cases hk : k = w
    · subst hk
      have hz : wsum (rest.map fun p => PlayerWeaponStat.mk p.1 p.2) k = 0 := by
        refine wsum_eq_zero_of_not_mem _ k (fun ws hws hc => ?_)
        obtain ⟨⟨k', v'⟩, hmem, rfl⟩ := List.mem_map.1 hws
        exact h.1 (hc ▸ List.mem_map_of_mem Prod.fst hmem)
      simp [hz, alLookup]
    · simp only [if_neg hk]
      rw [ih h.2]
      simp [alLookup, hk]

theorem wsum_finishMerged (mp : MergedPlayer) (w : String)
    (h : (alKeys mp.weaponMap).Nodup) :
    wsum (finishMerged mp).weaponStats w = (alLookup mp.weaponMap w).getD 0 := by
  show wsum (sortDesc (fun ws => ws.kills)
    (mp.weaponMap.map fun p => PlayerWeaponStat.mk p.1 p.2)) w = _
  rw [wsum_perm (sortDesc_perm _ _) w, wsum_map_mk mp.weaponMap w h]

theorem killOfName_finishedEntries (m : MergedMap)
    (hname : ∀ e ∈ m, e.2.name = e.1) (hnd : (alKeys m).Nodup) (n : String) :
    killOfName (m.map (fun e => finishMerged e.2)) n = recKill m n := by
  induction m with
  | nil => rfl
  | cons e rest ih =>
    obtain ⟨k, mp⟩ := e
    have hkname : mp.name = k := hname (k, mp) (List.mem_cons_self _ _)
    simp only [alKeys, List.map_cons, List.nodup_cons] at hnd
    simp only [List.map_cons]
    unfold killOfName
    rw [sumName_cons]
    have hfin : (finishMerged mp).name = k := hkname
    by_cases hk : k = n
    · subst hk
      rw [if_pos hfin]
      have hz : ((List.filter (fun r => r.name == k)
          (rest.map (fun e => finishMerged e.2))).map
            (fun r => r.killCount)).sum = 0 := by
        refine sumName_eq_zero _ _ k (fun r hr => ?_)
        obtain ⟨e', hmem, rfl⟩ := List.mem_map.1 hr
        have : e'.2.name = e'.1 := hname e' (List.mem_cons_of_mem _ hmem)
        show (finishMerged e'.2).name ≠ k
        show e'.2.name ≠ k
        rw [this]
        intro hc
        exact hnd.1 (hc ▸ List.mem_map_of_mem Prod.fst hmem)
      rw [hz]
      show (finishMerged mp).killCount + 0 = recKill ((k, mp) :: rest) k
      simp [finishMerged, recKill, alLookup]
    · rw [if_neg (fun hh : (finishMerged mp).name = n => hk (hfin ▸ hh))]
      have ihr := ih (fun e he => hname e (List.mem_cons_of_mem _ he)) hnd.2
      unfold killOfName at ihr
      rw [ihr]
      simp [recKill, alLookup, hk]

/-- Generic form of the previous lemma: any record reader `f` that agrees
with a map reader `g` through `finishMerged` sums, over the finished
entries named `n`, to the map's value at `n`. -/
theorem sumName_finishedEntries (f : PlayerEventSummary → Int)
    (g : MergedPlayer → Int) (m : MergedMap)
    (hent : ∀ e ∈ m, e.2.name = e.1 ∧ (alKeys e.2.weaponMap).Nodup)
    (hnd : (alKeys m).Nodup)
    (hfg : ∀ mp : MergedPlayer, (alKeys mp.weaponMap).Nodup →
      f (finishMerged mp) = g mp) (n : String) :
    ((List.filter (fun r => r.name == n)
        (m.map (fun e => finishMerged e.2))).map f).sum =
      (match alLookup m n with
        | some mp => g mp
        | none => 0) := by
  induction m with
  | nil => rfl
  | cons e rest ih =>
    obtain ⟨k, mp⟩ := e
    have hkname : mp.name = k := (hent (k, mp) (List.mem_cons_self _ _)).1
    have hkwm : (alKeys mp.weaponMap).Nodup :=
      (hent (k, mp) (List.mem_cons_self _ _)).2
    simp only [alKeys, List.map_cons, List.nodup_cons] at hnd
    simp only [List.map_cons]
    rw [sumName_cons]
    have hfin : (finishMerged mp).name = k := hkname
    by_cases hk : k = n
    · subst hk
      rw [if_pos hfin]
      have hz : ((List.filter (fun r => r.name == k)
          (rest.map (fun e => finishMerged e.2))).map f).sum = 0 := by
        refine sumName_eq_zero _ _ k (fun r hr => ?_)
        obtain ⟨e', hmem, rfl⟩ := List.mem_map.1 hr
        have hn' : e'.2.name = e'.1 :=
          (hent e' (List.mem_cons_of_mem _ hmem)).1
        show e'.2.name ≠ k
        rw [hn']
        intro hc
        exact hnd.1 (hc ▸ List.mem_map_of_mem Prod.fst hmem)
      rw [hz, hfg mp hkwm]
      simp [alLookup]
    · rw [if_neg (fun hh : (finishMerged mp).name = n => hk (hfin ▸ hh))]
      have ihr := ih (fun e he => hent e (List.mem_cons_of_mem _ he)) hnd.2
      rw [ihr]
      simp [alLookup, hk]

/-! ## Totals of the merged output (`mergeAll`) -/

theorem killOfName_mergeAll (fs : List (List PlayerEventSummary)) (n : String) :
    killOfName (mergeAll fs) n = killOfName fs.flatten n := by
  obtain ⟨hent, hnd⟩ := MergedMapOK_mergeMap fs
  unfold mergeAll killOfName
  rw [sumName_perm _ (sortDesc_perm _ _) n,
    sumName_finishedEntries _ (fun mp => mp.killCount) (mergeMap fs) hent hnd
      (fun mp _ => rfl) n]
  have := recKill_mergeMap fs n
  unfold recKill at this
  unfold killOfName at this
  exact this

theorem deathOfName_mergeAll (fs : List (List PlayerEventSummary)) (n : String) :
    deathOfName (mergeAll fs) n = deathOfName fs.flatten n := by
  obtain ⟨hent, hnd⟩ := MergedMapOK_mergeMap fs
  unfold mergeAll deathOfName
  rw [sumName_perm _ (sortDesc_perm _ _) n,
    sumName_finishedEntries _ (fun mp => mp.deathCount) (mergeMap fs) hent hnd
      (fun mp _ => rfl) n]
  have := recDeath_mergeMap fs n
  unfold recDeath at this
  unfold deathOfName at this
  exact this

theorem tkOfName_mergeAll (fs : List (List PlayerEventSummary)) (n : String) :
    tkOfName (mergeAll fs) n = tkOfName fs.flatten n := by
  obtain ⟨hent, hnd⟩ := MergedMapOK_mergeMap fs
  unfold mergeAll tkOfName
  rw [sumName_perm _ (sortDesc_perm _ _) n,
    sumName_finishedEntries _ (fun mp => mp.teamKillCount) (mergeMap fs) hent hnd
      (fun mp _ => rfl) n]
  have := recTk_mergeMap fs n
  unfold recTk at this
  unfold tkOfName at this
  exact this

theorem weaponOfName_mergeAll (fs : List (List PlayerEventSummary)) (n w : String)
    (hp : ∀ f ∈ fs, ∀ p ∈ f, (p.weaponStats.map (fun ws => ws.weapon)).Nodup) :
    weaponOfName (mergeAll fs) n w = weaponOfName fs.flatten n w := by
  obtain ⟨hent, hnd⟩ := MergedMapOK_mergeMap fs
  unfold mergeAll weaponOfName
  rw [sumName_perm _ (sortDesc_perm _ _) n,
    sumName_finishedEntries _ (fun mp => (alLookup mp.weaponMap w).getD 0)
      (mergeMap fs) hent hnd (fun mp hmp => wsum_finishMerged mp w hmp) n]
  have := recWeapon_mergeMap fs n w hp
  unfold recWeapon at this
  unfold weaponOfName at this
  exact this

theorem finishMerged_recordOK (mp : MergedPlayer)
    (h1 : mp.killCount = wmValuesSum mp.weaponMap)
    (h2 : (alKeys mp.weaponMap).Nodup) : recordOK (finishMerged mp) := by
  constructor
  · simpa [finishMerged, weaponSlice_kills_sum] using h1
  · exact ((weaponSlice_weapons_perm mp.weaponMap).nodup_iff).2 h2

/-- Every record of the merged output satisfies `recordOK` provided the
per-file inputs do. -/
theorem mergeAll_recordOK (fs : List (List PlayerEventSummary))
    (hp : ∀ f ∈ fs, ∀ p ∈ f, recordOK p) :
    ∀ r ∈ mergeAll fs, recordOK r := by
  intro r hr
  unfold mergeAll at hr
  rw [mem_sortDesc] at hr
  obtain ⟨e, he, rfl⟩ := List.mem_map.1 hr
  obtain ⟨hent, _⟩ := MergedMapOK_mergeMap fs
  exact finishMerged_recordOK e.2 (MergedSumOK_mergeMap fs hp e he)
    (hent e he).2

/-! ## First occurrence seeds identity (claim C9) -/

theorem alLookup_of_mem_nodup {κ ν : Type} [DecidableEq κ]
    (m : List (κ × ν)) (e : κ × ν) (he : e ∈ m) (h : (alKeys m).Nodup) :
    alLookup m e.1 = some e.2 := by
  induction m with
  | nil => exact absurd he (List.not_mem_nil e)
  | cons hd rest ih =>
    obtain ⟨k, v⟩ := hd
    simp only [alKeys, List.map_cons, List.nodup_cons] at h
    rcases List.mem_cons.1 he with rfl | he'
    · simp [alLookup]
    · have hne : k ≠ e.1 := by
        intro hc
        exact h.1 (hc ▸ List.mem_map_of_mem Prod.fst he')
      simp only [alLookup, if_neg hne]
      exact ih he' h.2

theorem alLookup_mergeRecord_ne (m : MergedMap) (p : PlayerEventSummary)
    (n : String) (h : p.name ≠ n) :
    alLookup (mergeRecord m p) n = alLookup m n := by
  unfold mergeRecord
  rcases alLookup m p.name with _ | acc
  · exact alLookup_alSet_ne m p.name n _ (fun hh => h hh.symm)
  · exact alLookup_alSet_ne m p.name n _ (fun hh => h hh.symm)

/-- Once a name is present, further merged records keep its id, name and
side (they only touch the counters and the weapon map). -/
theorem mergeRecords_stable (l : List PlayerEventSummary) (m : MergedMap)
    (n : String) (acc : MergedPlayer) (h : alLookup m n = some acc) :
    ∃ mp, alLookup (l.foldl mergeRecord m) n = some mp ∧
      mp.id = acc.id ∧ mp.name = acc.name ∧ mp.side = acc.side := by
  induction l generalizing m acc with
  | nil => exact ⟨acc, h, rfl, rfl, rfl⟩
  | cons p rest ih =>
    simp only [List.foldl_cons]
    by_cases hp : p.name = n
    · subst hp
      have hm' : alLookup (mergeRecord m p) p.name = some (addMerged acc p) := by
        unfold mergeRecord
        rw [h]
        exact alLookup_alSet_self m p.name _
      obtain ⟨mp, hmp, h1, h2, h3⟩ := ih (mergeRecord m p) (addMerged acc p) hm'
      exact ⟨mp, hmp, h1, h2, h3⟩
    · obtain ⟨mp, hmp, h1, h2, h3⟩ := ih (mergeRecord m p) acc
        ((alLookup_mergeRecord_ne m p n hp).trans h)
      exact ⟨mp, hmp, h1, h2, h3⟩

/-- A name absent from the map and present in the final fold was seeded by
the first record of that name, whose id/name/side the final record keeps. -/
theorem mergeRecords_first_seed (l : List PlayerEventSummary) (m : MergedMap)
    (n : String) (hnone : alLookup m n = none) (mp : MergedPlayer)
    (h : alLookup (l.foldl mergeRecord m) n = some mp) :
    ∃ r, l.find? (fun r => r.name == n) = some r ∧
      mp.id = r.id ∧ mp.name = r.name ∧ mp.side = r.side := by
  induction l generalizing m with
  | nil =>
    rw [List.foldl_nil] at h
    rw [hnone] at h
    exact absurd h (by simp)
  | cons p rest ih =>
    simp only [List.foldl_cons] at h
    by_cases hp : p.name = n
    · subst hp
      have hm' : alLookup (mergeRecord m p) p.name = some (seedMerged p) := by
        unfold mergeRecord
        rw [hnone]
        exact alLookup_alSet_self m p.name _
      obtain ⟨mp', hmp', h1, h2, h3⟩ :=
        mergeRecords_stable rest (mergeRecord m p) p.name (seedMerged p) hm'
      rw [h] at hmp'
      injection hmp' with hmp'
      subst hmp'
      refine ⟨p, ?_, h1, h2, h3⟩
      rw [List.find?_cons]
      simp
    · have hm' : alLookup (mergeRecord m p) n = none :=
        (alLookup_mergeRecord_ne m p n hp).trans hnone
      obtain ⟨r, hr, h1, h2, h3⟩ := ih (mergeRecord m p) hm' h
      refine ⟨r, ?_, h1, h2, h3⟩
      have hb : (p.name == n) = false := by simp [hp]
      rw [List.find?_cons]
      simp only [hb]
      exact hr

theorem mergeMap_eq_foldRecords (fs : List (List PlayerEventSummary)) :
    mergeMap fs = fs.flatten.foldl mergeRecord [] := by
  suffices h : ∀ m0 : MergedMap,
      fs.foldl mergeFile m0 = fs.flatten.foldl mergeRecord m0 from h []
  induction fs with
  | nil => intro m0; rfl
  | cons f rest ih =>
    intro m0
    simp only [List.foldl_cons, List.flatten_cons, List.foldl_append]
    exact ih (mergeFile m0 f)

/-! ## The by-name index and `GetByName` lookup -/

theorem mem_alKeys_alSet {κ ν : Type} [DecidableEq κ]
    (m : List (κ × ν)) (k : κ) (v : ν) (q : κ) :
    q ∈ alKeys (alSet m k v) ↔ q ∈ alKeys m ∨ q = k := by
  by_cases h : k ∈ alKeys m
  · rw [alKeys_alSet_mem _ _ _ h]
    constructor
    · exact Or.inl
    · rintro (hq | rfl)
      · exact hq
      · exact h
  · rw [alKeys_alSet_not_mem _ _ _ h]
    simp [List.mem_append]

/-- Every index entry is keyed by the lowercased name of its record. -/
theorem buildIndex_key_eq (stats : List PlayerEventSummary) :
    ∀ e ∈ buildIndex stats, e.1 = goToLower e.2.name := by
  suffices h : ∀ (m0 : List (String × PlayerEventSummary)),
      (∀ e ∈ m0, e.1 = goToLower e.2.name) →
      ∀ e ∈ stats.foldl (fun m p => alSet m (goToLower p.name) p) m0,
        e.1 = goToLower e.2.name from
    h [] (fun e he => absurd he (List.not_mem_nil e))
  induction stats with
  | nil => exact fun m0 h0 => h0
  | cons p rest ih =>
    intro m0 h0
    simp only [List.foldl_cons]
    refine ih _ (fun e he => ?_)
    rcases mem_alSet m0 (goToLower p.name) p e he with rfl | he'
    · rfl
    · exact h0 e he'

theorem buildIndex_keys_nodup (stats : List PlayerEventSummary) :
    (alKeys (buildIndex stats)).Nodup := by
  suffices h : ∀ (m0 : List (String × PlayerEventSummary)),
      (alKeys m0).Nodup →
      (alKeys (stats.foldl (fun m p => alSet m (goToLower p.name) p) m0)).Nodup
    from h [] (by simp [alKeys])
  induction stats with
  | nil => exact fun m0 h0 => h0
  | cons p rest ih =>
    intro m0 h0
    exact ih _ (nodup_alKeys_alSet _ _ _ h0)

theorem buildIndex_keys_mem (stats : List PlayerEventSummary) (k : String) :
    k ∈ alKeys (buildIndex stats) ↔
      k ∈ stats.map (fun p => goToLower p.name) := by
  suffices h : ∀ (m0 : List (String × PlayerEventSummary)),
      k ∈ alKeys (stats.foldl (fun m p => alSet m (goToLower p.name) p) m0) ↔
        k ∈ alKeys m0 ∨ k ∈ stats.map (fun p => goToLower p.name) by
    rw [buildIndex, h []]
    simp [alKeys]
  induction stats with
  | nil =>
    intro m0
    simp
  | cons p rest ih =>
    intro m0
    simp only [List.foldl_cons, List.map_cons, List.mem_cons]
    rw [ih (alSet m0 (goToLower p.name) p), mem_alKeys_alSet]
    tauto

theorem length_buildIndex (stats : List PlayerEventSummary) :
    (buildIndex stats).length =
      ((stats.map (fun p => goToLower p.name)).dedup).length := by
  have hlen : (buildIndex stats).length = (alKeys (buildIndex stats)).length := by
    simp [alKeys]
  rw [hlen]
  have hnd := buildIndex_keys_nodup stats
  have hfin : (alKeys (buildIndex stats)).toFinset =
      (stats.map (fun p => goToLower p.name)).toFinset := by
    ext k
    simp only [List.mem_toFinset]
    exact buildIndex_keys_mem stats k
  calc (alKeys (buildIndex stats)).length
      = (alKeys (buildIndex stats)).toFinset.card :=
        (List.toFinset_card_of_nodup hnd).symm
    _ = (stats.map (fun p => goToLower p.name)).toFinset.card := by rw [hfin]
    _ = ((stats.map (fun p => goToLower p.name)).dedup).length :=
        List.card_toFinset _

theorem dedup_length_lt_of_not_nodup {α : Type} [DecidableEq α]
    (l : List α) (h : ¬l.Nodup) : l.dedup.length < l.length := by
  rcases Nat.lt_or_ge l.dedup.length l.length with hlt | hge
  · exact hlt
  · exfalso
    have hle := (List.dedup_sublist l).length_le
    have heq : l.dedup.length = l.length := le_antisymm hle hge
    have := (List.dedup_sublist l).eq_of_length heq
    exact h (this ▸ List.nodup_dedup l)

theorem findContain_mem (idx : List (String × PlayerEventSummary)) (q : String)
    (p : PlayerEventSummary) (h : findContain idx q = some p) :
    ∃ k, (k, p) ∈ idx ∧ goContains k q = true := by
  induction idx with
  | nil => exact absurd h (by simp [findContain])
  | cons e rest ih =>
    obtain ⟨k, v⟩ := e
    unfold findContain at h
    by_cases hc : goContains k q
    · rw [if_pos hc] at h
      injection h with h
      subst h
      exact ⟨k, List.mem_cons_self _ _, hc⟩
    · rw [if_neg hc] at h
      obtain ⟨k', hk', hc'⟩ := ih h
      exact ⟨k', List.mem_cons_of_mem _ hk', hc'⟩

theorem findContain_isSome (idx : List (String × PlayerEventSummary))
    (q : String) (h : ∃ e ∈ idx, goContains e.1 q = true) :
    ∃ p, findContain idx q = some p := by
  induction idx with
  | nil =>
    obtain ⟨e, he, _⟩ := h
    exact absurd he (List.not_mem_nil e)
  | cons e rest ih =>
    obtain ⟨k, v⟩ := e
    unfold findContain
    by_cases hc : goContains k q
    · exact ⟨v, by rw [if_pos hc]⟩
    · obtain ⟨e', he', hc'⟩ := h
      rcases List.mem_cons.1 he' with rfl | he''
      · exact absurd hc' (by simpa using hc)
      · obtain ⟨p, hp⟩ := ih ⟨e', he'', hc'⟩
        exact ⟨p, by rw [if_neg hc]; exact hp⟩

theorem findContain_none (idx : List (String × PlayerEventSummary)) (q : String)
    (h : ∀ e ∈ idx, goContains e.1 q = false) : findContain idx q = none := by
  induction idx with
  | nil => rfl
  | cons e rest ih =>
    obtain ⟨k, v⟩ := e
    unfold findContain
    rw [if_neg (by simpa using h (k, v) (List.mem_cons_self _ _))]
    exact ih (fun e' he' => h e' (List.mem_cons_of_mem _ he'))

/-! ## The worker loop versus the successful files -/

theorem mergeOutcomes_eq_mergeFiles (outs : FileOutcomes) :
    ∀ m : MergedMap,
      mergeOutcomes m outs =
        (outs.filterMap Except.toOption).foldl mergeFile m := by
  induction outs with
  | nil => intro m; rfl
  | cons o rest ih =>
    intro m
    rcases o with e | ps
    · simp only [mergeOutcomes, List.filterMap_cons]
      show mergeOutcomes m rest = _
      rw [ih m]
      rfl
    · simp only [mergeOutcomes, List.filterMap_cons]
      show mergeOutcomes (mergeFile m ps) rest = _
      rw [ih (mergeFile m ps)]
      rfl

/-- On a successful directory scan the pipeline output is exactly the
merged output of the files that processed successfully. -/
theorem processAll_ok (outs : FileOutcomes) :
    processAllPlayerEvents (.ok outs) =
      .ok (mergeAll (outs.filterMap Except.toOption)) := by
  show Except.ok (sortDesc (fun p => p.killCount)
      ((mergeOutcomes [] outs).map (fun e => finishMerged e.2))) = _
  rw [mergeOutcomes_eq_mergeFiles outs []]
  rfl

/-! ## A fully well-formed kill event -/

/-- The raw tuple of a well-formed `killed` event:
`[frameNum, "killed", victimId, [causedById, weapon], distance]`. -/
def mkKilledEvent (frame victimID killerID : Int) (weaponVal : JsonVal)
    (distance : Int) : List JsonVal :=
  [.num frame, .str "killed", .num victimID,
    .arr [.num killerID, weaponVal], .num distance]

/-- The guard chain of the event loop accepts a well-formed `killed` event
and runs the kill update with the weapon defaulting to `"N/A"` when the
weapon slot is not a string. -/
theorem processEvent_mkKilledEvent (m : PlayerMap)
    (frame victimID killerID distance : Int) (weaponVal : JsonVal) :
    processEvent m (mkKilledEvent frame victimID killerID weaponVal distance) =
      applyKill m killerID victimID ((jsonStr? weaponVal).getD "N/A") := rfl

/-! # Claim theorems -/

/-- C1: for every player record produced by per-capture processing
(`processPlayerEvents`) and by archive merging (`processAllPlayerEvents`),
after processing any set of entities and events, `killCount` equals the
sum of the `kills` values over that record's `weaponStats` entries. -/
theorem C1_killCount_eq_weaponStats_sum :
    (∀ c : CaptureData, ∀ r ∈ processCapture c,
      r.killCount = (r.weaponStats.map (fun ws => ws.kills)).sum) ∧
    (∀ cs : List CaptureData, ∀ r ∈ mergeAll (cs.map processCapture),
      r.killCount = (r.weaponStats.map (fun ws => ws.kills)).sum) := by
  constructor
  · intro c r hr
    exact (processCapture_provenance c r hr).1.1
  · intro cs r hr
    refine (mergeAll_recordOK _ ?_ r hr).1
    intro f hf p hp
    obtain ⟨c, _, rfl⟩ := List.mem_map.1 hf
    exact (processCapture_provenance c p hp).1

/-- Witness for C1 at a concrete capture: a west player kills an east
player with a rifle. -/
theorem C1_killCount_witness :
    (PlayerEventSummary.mk 1 "A" "WEST" 1 0 0 [PlayerWeaponStat.mk "Rifle" 1]) ∈
      processCapture (CaptureData.mk
        [CaptureEntity.mk "unit" 1 "A" "WEST" 1 [],
          CaptureEntity.mk "unit" 2 "B" "EAST" 1 []]
        [mkKilledEvent 10 2 1 (JsonVal.str "Rifle") 50]) ∧
    (PlayerEventSummary.mk 1 "A" "WEST" 1 0 0
        [PlayerWeaponStat.mk "Rifle" 1]).killCount =
      ((PlayerEventSummary.mk 1 "A" "WEST" 1 0 0
        [PlayerWeaponStat.mk "Rifle" 1]).weaponStats.map
          (fun ws => ws.kills)).sum :=
  ⟨by decide,
    C1_killCount_eq_weaponStats_sum.1
      (CaptureData.mk
        [CaptureEntity.mk "unit" 1 "A" "WEST" 1 [],
          CaptureEntity.mk "unit" 2 "B" "EAST" 1 []]
        [mkKilledEvent 10 2 1 (JsonVal.str "Rifle") 50])
      (PlayerEventSummary.mk 1 "A" "WEST" 1 0 0 [PlayerWeaponStat.mk "Rifle" 1])
      (by decide)⟩

/-- C2: the merged aggregate's per-name counters and per-weapon kill
totals do not depend on the order in which per-file results are merged:
merging files `[A, B]` then `[C]` gives the same totals per player name
(and per weapon) as merging `[C, A, B]`. -/
theorem C2_merge_order_independent :
    ∀ (A B C : CaptureData) (n w : String),
      killOfName (mergeAll
          [processCapture A, processCapture B, processCapture C]) n =
        killOfName (mergeAll
          [processCapture C, processCapture A, processCapture B]) n ∧
      deathOfName (mergeAll
          [processCapture A, processCapture B, processCapture C]) n =
        deathOfName (mergeAll
          [processCapture C, processCapture A, processCapture B]) n ∧
      tkOfName (mergeAll
          [processCapture A, processCapture B, processCapture C]) n =
        tkOfName (mergeAll
          [processCapture C, processCapture A, processCapture B]) n ∧
      weaponOfName (mergeAll
          [processCapture A, processCapture B, processCapture C]) n w =
        weaponOfName (mergeAll
          [processCapture C, processCapture A, processCapture B]) n w := by
  intro A B C n w
  have hnod1 : ∀ l ∈ [processCapture A, processCapture B, processCapture C],
      ∀ p ∈ l, (p.weaponStats.map (fun ws => ws.weapon)).Nodup := by
    intro l hl p hp
    rcases List.mem_cons.1 hl with rfl | hl'
    · exact (processCapture_provenance A p hp).1.2
    rcases List.mem_cons.1 hl' with rfl | hl''
    · exact (processCapture_provenance B p hp).1.2
    rcases List.mem_cons.1 hl'' with rfl | hl'''
    · exact (processCapture_provenance C p hp).1.2
    · exact absurd hl''' (List.not_mem_nil l)
  have hnod2 : ∀ l ∈ [processCapture C, processCapture A, processCapture B],
      ∀ p ∈ l, (p.weaponStats.map (fun ws => ws.weapon)).Nodup := by
    intro l hl p hp
    rcases List.mem_cons.1 hl with rfl | hl'
    · exact (processCapture_provenance C p hp).1.2
    rcases List.mem_cons.1 hl' with rfl | hl''
    · exact (processCapture_provenance A p hp).1.2
    rcases List.mem_cons.1 hl'' with rfl | hl'''
    · exact (processCapture_provenance B p hp).1.2
    · exact absurd hl''' (List.not_mem_nil l)
  refine ⟨?_, ?_, ?_, ?_⟩
  · rw [killOfName_mergeAll, killOfName_mergeAll]
    unfold killOfName
    simp only [List.flatten_cons, List.flatten_nil, List.append_nil]
    rw [sumName_append, sumName_append, sumName_append, sumName_append]
    ring
  · rw [deathOfName_mergeAll, deathOfName_mergeAll]
    unfold deathOfName
    simp only [List.flatten_cons, List.flatten_nil, List.append_nil]
    rw [sumName_append, sumName_append, sumName_append, sumName_append]
    ring
  · rw [tkOfName_mergeAll, tkOfName_mergeAll]
    unfold tkOfName
    simp only [List.flatten_cons, List.flatten_nil, List.append_nil]
    rw [sumName_append, sumName_append, sumName_append, sumName_append]
    ring
  · rw [weaponOfName_mergeAll _ _ _ hnod1, weaponOfName_mergeAll _ _ _ hnod2]
    unfold weaponOfName
    simp only [List.flatten_cons, List.flatten_nil, List.append_nil]
    rw [sumName_append, sumName_append, sumName_append, sumName_append]
    ring

/-- C3 counterexample: the claim predicts the override `"B"` from the
position history.  The streaming decoder keeps the static name `"A"`, and
the last-10 variant misses an override older than the last 10 snapshots. -/
theorem C3_display_name_counterexample :
    specEffectiveName "A"
        [[JsonVal.num 0, JsonVal.num 0, JsonVal.num 1, JsonVal.num 0,
          JsonVal.str "B", JsonVal.num 1]] = "B" ∧
    (processCapture (CaptureData.mk
        [CaptureEntity.mk "unit" 1 "A" "WEST" 1
          [[JsonVal.num 0, JsonVal.num 0, JsonVal.num 1, JsonVal.num 0,
            JsonVal.str "B", JsonVal.num 1]]] [])).map (fun r => r.name) =
      ["A"] ∧
    ("A" : String) ≠ "B" ∧
    resolveDisplayNameLast10 (CaptureEntity.mk "unit" 2 "A" "WEST" 1
        ([[JsonVal.num 0, JsonVal.num 0, JsonVal.num 1, JsonVal.num 0,
          JsonVal.str "B", JsonVal.num 1]] ++
          List.replicate 10 [JsonVal.num 0])) = "A" ∧
    specEffectiveName "A"
        ([[JsonVal.num 0, JsonVal.num 0, JsonVal.num 1, JsonVal.num 0,
          JsonVal.str "B", JsonVal.num 1]] ++
          List.replicate 10 [JsonVal.num 0]) = "B" := by decide

/-- C3 amended: the whole-document decoder resolves the display name as
the last non-empty parseable override (falling back to the static name);
the concurrent variant applies the same rule restricted to the last 10
position snapshots; and the streaming decoder ignores position history
altogether, so its records carry the static entity name. -/
theorem C3_display_name_amended :
    (∀ e : CaptureEntity,
      resolveDisplayNameFull e = specEffectiveName e.name e.positions) ∧
    (∀ e : CaptureEntity,
      resolveDisplayNameLast10 e =
        specEffectiveName e.name
          (e.positions.drop (e.positions.length - 10))) ∧
    (∀ c : CaptureData, ∀ r ∈ processCapture c,
      ∃ ent ∈ c.entities, r.name = ent.name ∧ ent.type = "unit" ∧
        ent.isPlayer = 1) := by
  refine ⟨fun e => rfl, fun e => rfl, ?_⟩
  intro c r hr
  obtain ⟨_, ent, hent, hname, _, htype, hplayer⟩ :=
    processCapture_provenance c r hr
  exact ⟨ent, hent, hname, htype, hplayer⟩

/-- Witness for the amended C3 at a concrete capture. -/
theorem C3_display_name_witness :
    (PlayerEventSummary.mk 1 "A" "WEST" 0 0 0 []) ∈
      processCapture (CaptureData.mk
        [CaptureEntity.mk "unit" 1 "A" "WEST" 1 []] []) ∧
    ∃ ent ∈ [CaptureEntity.mk "unit" 1 "A" "WEST" 1 []],
      (PlayerEventSummary.mk 1 "A" "WEST" 0 0 0 []).name = ent.name ∧
        ent.type = "unit" ∧ ent.isPlayer = 1 :=
  ⟨by decide,
    C3_display_name_amended.2.2
      (CaptureData.mk [CaptureEntity.mk "unit" 1 "A" "WEST" 1 []] [])
      (PlayerEventSummary.mk 1 "A" "WEST" 0 0 0 []) (by decide)⟩

/-- C4: processing a well-formed `killed` event changes the team-kill
counter of a tracked player `q` by one exactly when `q` is the causer and
the team-kill condition holds; that condition is: causer and victim both
resolve to tracked players, their ids differ, and their sides agree.  In
particular a self-kill never increments `teamKillCount`, and the victim's
`teamKillCount` is never incremented. -/
theorem C4_teamkill_condition :
    (∀ (m : PlayerMap) (frame victimID killerID distance : Int)
        (weaponVal : JsonVal) (q : Int),
      lookTk (processEvent m
          (mkKilledEvent frame victimID killerID weaponVal distance)) q =
        lookTk m q +
          (if q = killerID ∧ tkCond m killerID victimID = true then 1
            else 0)) ∧
    (∀ (m : PlayerMap) (killerID victimID : Int),
      tkCond m killerID victimID = true ↔
        ∃ killer victim, alLookup m killerID = some killer ∧
          alLookup m victimID = some victim ∧ killerID ≠ victimID ∧
          killer.side = victim.side) := by
  constructor
  · intro m frame victimID killerID distance weaponVal q
    rw [processEvent_mkKilledEvent]
    exact lookTk_applyKill m killerID victimID _ q
  · intro m killerID victimID
    unfold tkCond
    rcases h1 : alLookup m killerID with _ | killer
    · simp [h1]
    · rcases h2 : alLookup m victimID with _ | victim
      · simp [h1, h2]
      · simp [h1, h2, decide_eq_true_eq]

theorem getByName_eq (idx : List (String × PlayerEventSummary)) (q : String) :
    getByName idx q =
      match alLookup idx (goToLower q) with
      | some p => some p
      | none => findContain idx (goToLower q) := rfl

/-- C5: the by-name lookup resolves case-insensitively, exact match against
the lowercased-name index first, substring containment only on an exact
miss, and `none` (not an error) when nothing matches; with players `"Bobby"`
and `"Bob"`, querying `"Bob"` returns `"Bob"`. -/
theorem C5_getByName_precedence :
    (∀ (stats : List PlayerEventSummary) (q : String) (p : PlayerEventSummary),
      alLookup (buildIndex stats) (goToLower q) = some p →
        getByName (buildIndex stats) q = some p ∧
          goToLower p.name = goToLower q) ∧
    (∀ (stats : List PlayerEventSummary) (q : String),
      alLookup (buildIndex stats) (goToLower q) = none →
      (∃ e ∈ buildIndex stats, goContains e.1 (goToLower q) = true) →
      ∃ p, getByName (buildIndex stats) q = some p ∧
        goContains (goToLower p.name) (goToLower q) = true) ∧
    (∀ (idx : List (String × PlayerEventSummary)) (q : String),
      alLookup idx (goToLower q) = none →
      (∀ e ∈ idx, goContains e.1 (goToLower q) = false) →
      getByName idx q = none) ∧
    getByName (buildIndex
        [PlayerEventSummary.mk 1 "Bobby" "WEST" 0 0 0 [],
          PlayerEventSummary.mk 2 "Bob" "EAST" 0 0 0 []]) "Bob" =
      some (PlayerEventSummary.mk 2 "Bob" "EAST" 0 0 0 []) := by
  refine ⟨?_, ?_, ?_, by decide⟩
  · intro stats q p h
    refine ⟨by rw [getByName_eq, h], ?_⟩
    exact (buildIndex_key_eq stats (goToLower q, p) (alLookup_mem _ _ _ h)).symm
  · intro stats q hnone hex
    obtain ⟨p, hp⟩ := findContain_isSome (buildIndex stats) (goToLower q) hex
    obtain ⟨k, hk, hc⟩ := findContain_mem (buildIndex stats) (goToLower q) p hp
    refine ⟨p, ?_, ?_⟩
    · rw [getByName_eq, hnone]
      exact hp
    · have := buildIndex_key_eq stats (k, p) hk
      rw [← this]
      exact hc
  · intro idx q hnone hall
    rw [getByName_eq, hnone]
    exact findContain_none idx (goToLower q) hall

/-- Witness for C5 at the `"Bob"`/`"Bobby"` index. -/
theorem C5_getByName_witness :
    alLookup (buildIndex
        [PlayerEventSummary.mk 1 "Bobby" "WEST" 0 0 0 [],
          PlayerEventSummary.mk 2 "Bob" "EAST" 0 0 0 []])
      (goToLower "Bob") = some (PlayerEventSummary.mk 2 "Bob" "EAST" 0 0 0 []) ∧
    (getByName (buildIndex
        [PlayerEventSummary.mk 1 "Bobby" "WEST" 0 0 0 [],
          PlayerEventSummary.mk 2 "Bob" "EAST" 0 0 0 []]) "Bob" =
      some (PlayerEventSummary.mk 2 "Bob" "EAST" 0 0 0 []) ∧
      goToLower (PlayerEventSummary.mk 2 "Bob" "EAST" 0 0 0 []).name =
        goToLower "Bob") :=
  ⟨by decide,
    C5_getByName_precedence.1
      [PlayerEventSummary.mk 1 "Bobby" "WEST" 0 0 0 [],
        PlayerEventSummary.mk 2 "Bob" "EAST" 0 0 0 []] "Bob"
      (PlayerEventSummary.mk 2 "Bob" "EAST" 0 0 0 []) (by decide)⟩

/-- C6: the pipeline fails exactly when directory enumeration fails; a
file whose processing failed is skipped, contributing nothing, and the
remaining files' results are still merged. -/
theorem C6_failure_policy :
    (∀ g : Except String FileOutcomes,
      (∃ e, processAllPlayerEvents g = .error e) ↔ (∃ e, g = .error e)) ∧
    (∀ outs : FileOutcomes,
      processAllPlayerEvents (.ok outs) =
        .ok (mergeAll (outs.filterMap Except.toOption))) ∧
    (∀ err : String,
      processAllPlayerEvents (.error err) =
        .error ("glob data dir: " ++ err)) := by
  refine ⟨?_, processAll_ok, fun err => rfl⟩
  intro g
  constructor
  · rintro ⟨e, he⟩
    cases g with
    | error e' => exact ⟨e', rfl⟩
    | ok outs =>
      rw [processAll_ok] at he
      exact absurd he (by simp)
  · rintro ⟨e, rfl⟩
    exact ⟨"glob data dir: " ++ e, rfl⟩

/-- Witness for C6: one failing file plus one succeeding file merge to the
succeeding file's aggregate alone, with no error. -/
theorem C6_failure_policy_witness :
    processAllPlayerEvents (.ok
        [Except.error "open capture file: no such file",
          Except.ok [PlayerEventSummary.mk 1 "A" "WEST" 0 0 0 []]]) =
      .ok (mergeAll [[PlayerEventSummary.mk 1 "A" "WEST" 0 0 0 []]]) :=
  C6_failure_policy.2.1
    [Except.error "open capture file: no such file",
      Except.ok [PlayerEventSummary.mk 1 "A" "WEST" 0 0 0 []]]

/-- C7: the cache starts not built; a read when not built triggers a build
and, on success, leaves it built; reads in the built state return the
stored aggregate with the state untouched (regardless of what a rebuild
would return); only `Invalidate` resets `built`; and a failed build leaves
the cache not built with its state untouched, so a later read rebuilds. -/
theorem C7_cache_state_machine :
    NewPlayerCache.built = false ∧
    (∀ (c : CacheState) (outs : FileOutcomes) (q : String), c.built = false →
      (GetAll c (.ok outs)).2.built = true ∧
      (GetAll c (.ok outs)).1 = .ok ((GetAll c (.ok outs)).2.allStats) ∧
      (GetByName c (.ok outs) q).2.built = true) ∧
    (∀ (c : CacheState) (g : Except String FileOutcomes) (q : String),
      c.built = true →
      GetAll c g = (.ok c.allStats, c) ∧
      GetByName c g q = (.ok (getByName c.byName q), c)) ∧
    (∀ c : CacheState, (Invalidate c).built = false) ∧
    (∀ (c : CacheState) (err : String) (outs : FileOutcomes),
      c.built = false →
      GetAll c (.error err) = (.error ("glob data dir: " ++ err), c) ∧
      (GetAll ((GetAll c (.error err)).2) (.ok outs)).2.built = true) := by
  refine ⟨rfl, ?_, ?_, fun c => rfl, ?_⟩
  · intro c outs q h
    refine ⟨?_, ?_, ?_⟩ <;>
      simp [GetAll, GetByName, ensureBuilt, h, processAll_ok]
  · intro c g q h
    constructor <;> simp [GetAll, GetByName, ensureBuilt, h]
  · intro c err outs h
    have h5 : GetAll c (.error err) = (.error ("glob data dir: " ++ err), c) := by
      simp [GetAll, ensureBuilt, h, processAllPlayerEvents]
    refine ⟨h5, ?_⟩
    rw [h5]
    simp [GetAll, ensureBuilt, h, processAll_ok]

/-- Witness for C7: the fresh cache serves a first read and becomes built. -/
theorem C7_cache_witness :
    (GetAll NewPlayerCache (.ok [])).2.built = true ∧
    (GetAll NewPlayerCache (.ok [])).1 =
      .ok ((GetAll NewPlayerCache (.ok [])).2.allStats) ∧
    (GetByName NewPlayerCache (.ok []) "x").2.built = true :=
  C7_cache_state_machine.2.1 NewPlayerCache [] "x" rfl

/-- C8 counterexample: two legal iteration orders of the same player map
(both permutations of its entries — here two players tied at zero kills)
produce different output orders, so tie order is not deterministic across
runs. -/
theorem C8_tie_order_counterexample :
    List.Perm
      [freshAcc (CaptureEntity.mk "unit" 1 "P1" "WEST" 1 []),
        freshAcc (CaptureEntity.mk "unit" 2 "P2" "WEST" 1 [])]
      ((runEvents (buildPlayerMap
        [CaptureEntity.mk "unit" 1 "P1" "WEST" 1 [],
          CaptureEntity.mk "unit" 2 "P2" "WEST" 1 []]) []).map Prod.snd) ∧
    List.Perm
      [freshAcc (CaptureEntity.mk "unit" 2 "P2" "WEST" 1 []),
        freshAcc (CaptureEntity.mk "unit" 1 "P1" "WEST" 1 [])]
      ((runEvents (buildPlayerMap
        [CaptureEntity.mk "unit" 1 "P1" "WEST" 1 [],
          CaptureEntity.mk "unit" 2 "P2" "WEST" 1 []]) []).map Prod.snd) ∧
    collectPlayers
        [freshAcc (CaptureEntity.mk "unit" 1 "P1" "WEST" 1 []),
          freshAcc (CaptureEntity.mk "unit" 2 "P2" "WEST" 1 [])] ≠
      collectPlayers
        [freshAcc (CaptureEntity.mk "unit" 2 "P2" "WEST" 1 []),
          freshAcc (CaptureEntity.mk "unit" 1 "P1" "WEST" 1 [])] := by decide

/-- C8 amended: per-capture and merged outputs are sorted by `killCount`
descending, with each record's `weaponStats` sorted by `kills` descending,
for every map iteration order; the order among tied records follows the
map iteration order and is not fixed across runs. -/
theorem C8_sorted_descending :
    (∀ iter : List PlayerAcc,
      (collectPlayers iter).Pairwise (fun a b => b.killCount ≤ a.killCount) ∧
      ∀ r ∈ collectPlayers iter,
        r.weaponStats.Pairwise (fun x y => y.kills ≤ x.kills)) ∧
    (∀ c : CaptureData,
      (processCapture c).Pairwise (fun a b => b.killCount ≤ a.killCount) ∧
      ∀ r ∈ processCapture c,
        r.weaponStats.Pairwise (fun x y => y.kills ≤ x.kills)) ∧
    (∀ fs : List (List PlayerEventSummary),
      (mergeAll fs).Pairwise (fun a b => b.killCount ≤ a.killCount) ∧
      ∀ r ∈ mergeAll fs,
        r.weaponStats.Pairwise (fun x y => y.kills ≤ x.kills)) := by
  have hcollect : ∀ iter : List PlayerAcc,
      (collectPlayers iter).Pairwise (fun a b => b.killCount ≤ a.killCount) ∧
      ∀ r ∈ collectPlayers iter,
        r.weaponStats.Pairwise (fun x y => y.kills ≤ x.kills) := by
    intro iter
    refine ⟨sortDesc_sorted _ _, ?_⟩
    intro r hr
    unfold collectPlayers at hr
    rw [mem_sortDesc] at hr
    obtain ⟨a, _, rfl⟩ := List.mem_map.1 hr
    exact sortDesc_sorted _ _
  refine ⟨hcollect, fun c => hcollect _, ?_⟩
  intro fs
  refine ⟨sortDesc_sorted _ _, ?_⟩
  intro r hr
  unfold mergeAll at hr
  rw [mem_sortDesc] at hr
  obtain ⟨e, _, rfl⟩ := List.mem_map.1 hr
  exact sortDesc_sorted _ _

/-- Witness for the amended C8 at a concrete two-player capture. -/
theorem C8_sorted_witness :
    (PlayerEventSummary.mk 1 "A" "WEST" 1 0 0 [PlayerWeaponStat.mk "Rifle" 1]) ∈
      processCapture (CaptureData.mk
        [CaptureEntity.mk "unit" 1 "A" "WEST" 1 [],
          CaptureEntity.mk "unit" 2 "B" "EAST" 1 []]
        [mkKilledEvent 10 2 1 (JsonVal.str "Rifle") 50]) ∧
    (PlayerEventSummary.mk 1 "A" "WEST" 1 0 0
        [PlayerWeaponStat.mk "Rifle" 1]).weaponStats.Pairwise
      (fun x y => y.kills ≤ x.kills) :=
  ⟨by decide,
    (C8_sorted_descending.2.1 (CaptureData.mk
        [CaptureEntity.mk "unit" 1 "A" "WEST" 1 [],
          CaptureEntity.mk "unit" 2 "B" "EAST" 1 []]
        [mkKilledEvent 10 2 1 (JsonVal.str "Rifle") 50])).2
      (PlayerEventSummary.mk 1 "A" "WEST" 1 0 0 [PlayerWeaponStat.mk "Rifle" 1])
      (by decide)⟩

/-- C9: folding a later per-file record into an existing merged record of
the same name changes only the three counters and the weapon-kill map,
each strictly additively; id, name and side stay those of the record that
seeded the name — its first occurrence across the merged stream. -/
theorem C9_merge_frame_effect :
    (∀ (acc : MergedPlayer) (p : PlayerEventSummary),
      (addMerged acc p).id = acc.id ∧
      (addMerged acc p).name = acc.name ∧
      (addMerged acc p).side = acc.side ∧
      (addMerged acc p).killCount = acc.killCount + p.killCount ∧
      (addMerged acc p).deathCount = acc.deathCount + p.deathCount ∧
      (addMerged acc p).teamKillCount = acc.teamKillCount + p.teamKillCount ∧
      ∀ w, (alLookup (addMerged acc p).weaponMap w).getD 0 =
        (alLookup acc.weaponMap w).getD 0 + wsum p.weaponStats w) ∧
    (∀ (fs : List (List PlayerEventSummary)) (r : PlayerEventSummary),
      r ∈ mergeAll fs →
      ∃ r0, fs.flatten.find? (fun x => x.name == r.name) = some r0 ∧
        r.id = r0.id ∧ r.name = r0.name ∧ r.side = r0.side) := by
  constructor
  · intro acc p
    refine ⟨rfl, rfl, rfl, rfl, rfl, rfl, fun w => ?_⟩
    show (alLookup (p.weaponStats.foldl
        (fun wm ws => wmIncr wm ws.weapon ws.kills) acc.weaponMap) w).getD 0 = _
    exact incrFold_lookup p.weaponStats acc.weaponMap w
  · intro fs r hr
    unfold mergeAll at hr
    rw [mem_sortDesc] at hr
    obtain ⟨e, he, rfl⟩ := List.mem_map.1 hr
    obtain ⟨hent, hnd⟩ := MergedMapOK_mergeMap fs
    have hlook : alLookup (mergeMap fs) e.1 = some e.2 :=
      alLookup_of_mem_nodup (mergeMap fs) e he hnd
    rw [mergeMap_eq_foldRecords] at hlook
    obtain ⟨r0, hr0, h1, h2, h3⟩ :=
      mergeRecords_first_seed fs.flatten [] e.1 rfl e.2 hlook
    have hname : (finishMerged e.2).name = e.1 := (hent e he).1
    refine ⟨r0, ?_, h1, ?_, h3⟩
    · rw [hname]
      exact hr0
    · show e.2.name = r0.name
      exact h2

/-- Witness for C9 at two one-record files that share the name `"A"`. -/
theorem C9_merge_witness :
    (PlayerEventSummary.mk 1 "A" "WEST" 3 0 0
        [PlayerWeaponStat.mk "Pistol" 2, PlayerWeaponStat.mk "Rifle" 1]) ∈
      mergeAll
        [[PlayerEventSummary.mk 1 "A" "WEST" 1 0 0
            [PlayerWeaponStat.mk "Rifle" 1]],
          [PlayerEventSummary.mk 7 "A" "EAST" 2 0 0
            [PlayerWeaponStat.mk "Pistol" 2]]] ∧
    ∃ r0,
      ([[PlayerEventSummary.mk 1 "A" "WEST" 1 0 0
            [PlayerWeaponStat.mk "Rifle" 1]],
          [PlayerEventSummary.mk 7 "A" "EAST" 2 0 0
            [PlayerWeaponStat.mk "Pistol" 2]]] :
        List (List PlayerEventSummary)).flatten.find?
          (fun x => x.name ==
            (PlayerEventSummary.mk 1 "A" "WEST" 3 0 0
              [PlayerWeaponStat.mk "Pistol" 2,
                PlayerWeaponStat.mk "Rifle" 1]).name) = some r0 ∧
        (PlayerEventSummary.mk 1 "A" "WEST" 3 0 0
          [PlayerWeaponStat.mk "Pistol" 2,
            PlayerWeaponStat.mk "Rifle" 1]).id = r0.id ∧
        (PlayerEventSummary.mk 1 "A" "WEST" 3 0 0
          [PlayerWeaponStat.mk "Pistol" 2,
            PlayerWeaponStat.mk "Rifle" 1]).name = r0.name ∧
        (PlayerEventSummary.mk 1 "A" "WEST" 3 0 0
          [PlayerWeaponStat.mk "Pistol" 2,
            PlayerWeaponStat.mk "Rifle" 1]).side = r0.side :=
  ⟨by decide,
    C9_merge_frame_effect.2
      [[PlayerEventSummary.mk 1 "A" "WEST" 1 0 0
          [PlayerWeaponStat.mk "Rifle" 1]],
        [PlayerEventSummary.mk 7 "A" "EAST" 2 0 0
          [PlayerWeaponStat.mk "Pistol" 2]]]
      (PlayerEventSummary.mk 1 "A" "WEST" 3 0 0
        [PlayerWeaponStat.mk "Pistol" 2, PlayerWeaponStat.mk "Rifle" 1])
      (by decide)⟩

/-- C10 (implicit): the index is keyed by lowercased names, so two
distinct records whose names agree up to letter case collapse to one
index entry — the index is then strictly smaller than the record list —
and querying one player's exact name can return the other player's
record. -/
theorem C10_lowercased_index_collision :
    (∀ (stats : List PlayerEventSummary) (i j : Fin stats.length),
      i ≠ j →
      goToLower (stats.get i).name = goToLower (stats.get j).name →
      (buildIndex stats).length < stats.length) ∧
    (buildIndex [PlayerEventSummary.mk 1 "BOB" "WEST" 0 0 0 [],
      PlayerEventSummary.mk 2 "bob" "EAST" 0 0 0 []]).length = 1 ∧
    getByName (buildIndex [PlayerEventSummary.mk 1 "BOB" "WEST" 0 0 0 [],
        PlayerEventSummary.mk 2 "bob" "EAST" 0 0 0 []]) "BOB" =
      some (PlayerEventSummary.mk 2 "bob" "EAST" 0 0 0 []) ∧
    PlayerEventSummary.mk 2 "bob" "EAST" 0 0 0 [] ≠
      PlayerEventSummary.mk 1 "BOB" "WEST" 0 0 0 [] := by
  refine ⟨?_, by decide, by decide, by decide⟩
  intro stats i j hij hkey
  rw [length_buildIndex]
  have hlen : (stats.map (fun p => goToLower p.name)).length = stats.length :=
    List.length_map _ _
  have hnodup : ¬ (stats.map (fun p => goToLower p.name)).Nodup := by
    intro hnd
    have hinj := List.nodup_iff_injective_get.1 hnd
    have hi' : i.1 < (stats.map (fun p => goToLower p.name)).length := by
      rw [hlen]
      exact i.2
    have hj' : j.1 < (stats.map (fun p => goToLower p.name)).length := by
      rw [hlen]
      exact j.2
    have hget : (stats.map (fun p => goToLower p.name)).get ⟨i.1, hi'⟩ =
        (stats.map (fun p => goToLower p.name)).get ⟨j.1, hj'⟩ := by
      simp only [List.get_eq_getElem, List.getElem_map]
      simp only [List.get_eq_getElem] at hkey
      exact hkey
    have heq := hinj hget
    have hval : i.1 = j.1 := by simpa using heq
    exact hij (Fin.ext hval)
  calc ((stats.map (fun p => goToLower p.name)).dedup).length
      < (stats.map (fun p => goToLower p.name)).length :=
        dedup_length_lt_of_not_nodup _ hnodup
    _ = stats.length := hlen

/-- Witness for C10 at the `"BOB"`/`"bob"` pair. -/
theorem C10_collision_witness :
    (⟨0, by decide⟩ : Fin ([PlayerEventSummary.mk 1 "BOB" "WEST" 0 0 0 [],
        PlayerEventSummary.mk 2 "bob" "EAST" 0 0 0 []] :
        List PlayerEventSummary).length) ≠ ⟨1, by decide⟩ ∧
    goToLower (([PlayerEventSummary.mk 1 "BOB" "WEST" 0 0 0 [],
        PlayerEventSummary.mk 2 "bob" "EAST" 0 0 0 []] :
        List PlayerEventSummary).get ⟨0, by decide⟩).name =
      goToLower (([PlayerEventSummary.mk 1 "BOB" "WEST" 0 0 0 [],
        PlayerEventSummary.mk 2 "bob" "EAST" 0 0 0 []] :
        List PlayerEventSummary).get ⟨1, by decide⟩).name ∧
    (buildIndex [PlayerEventSummary.mk 1 "BOB" "WEST" 0 0 0 [],
        PlayerEventSummary.mk 2 "bob" "EAST" 0 0 0 []]).length <
      ([PlayerEventSummary.mk 1 "BOB" "WEST" 0 0 0 [],
        PlayerEventSummary.mk 2 "bob" "EAST" 0 0 0 []] :
        List PlayerEventSummary).length :=
  ⟨by decide, by decide,
    C10_lowercased_index_collision.1
      [PlayerEventSummary.mk 1 "BOB" "WEST" 0 0 0 [],
        PlayerEventSummary.mk 2 "bob" "EAST" 0 0 0 []]
      ⟨0, by decide⟩ ⟨1, by decide⟩ (by decide) (by decide)⟩
